import Mathlib

/-!
Verification of `MarshallOfSound/pruner` (`src/Walker.ts`, richer revision).

The filesystem is modelled as the finite list of its existing directories,
each carrying the parsed contents of its `package.json` file when that file
exists.  Paths are lists of segments, outward from the filesystem root `[]`.
Asynchronous filesystem code becomes explicit state passing; the unbounded
`while` loops and the recursion of the walker become structural recursion on
an explicit fuel argument, with theorems showing the stated fuel suffices.
-/

namespace Walker

/-- Embedding of filesystem paths: a path is its list of segments, outward
from the filesystem root.  The filesystem root itself is `[]`. -/
abbrev FsPath := List String

/-- Embedding of `path.dirname`: drop the final segment; the filesystem root
is its own parent (`path.dirname('/') === '/'`). -/
def dirname (p : FsPath) : FsPath := p.dropLast

/-- Embedding of `path.basename`: the final segment, or `""` at the
filesystem root. -/
def basename (p : FsPath) : String := (p.getLast?).getD ""

/-- Embedding of the way `path.resolve` splits a module name such as
`"@scope/pkg"` at `/` characters into path segments. -/
def splitName (moduleName : String) : List String :=
  (moduleName.data.splitOn '/').map (fun cs => String.mk cs)

/-- Embedding of `subModuleName.startsWith('@')` (line 104): the test whether
a name begins with the scope character. -/
def isScoped (s : String) : Bool := s.data.head? == some '@'

/-- Embedding of the `PackageJSON` interface (lines 5–9): the three
dependency maps, each an association list from module name to an opaque
version-range string. -/
structure PackageJSON where
  dependencies : List (String × String)
  devDependencies : List (String × String)
  optionalDependencies : List (String × String)

deriving DecidableEq

/-- One existing directory of the modelled filesystem, together with the
parsed contents of its `package.json` file when that file exists. -/
structure DirEntry where
  path : FsPath
  pkg : Option PackageJSON

deriving DecidableEq

/-- The modelled filesystem: the finite list of existing directories. -/
structure FileSystem where
  entries : List DirEntry

deriving DecidableEq

/-- Embedding of `fs.pathExists` on a directory path. -/
def pathExists (fs : FileSystem) (p : FsPath) : Bool :=
  fs.entries.any (fun e => e.path == p)

/-- Embedding of `Walker.loadPackageJSON` (lines 23–29): the descriptor at
`modulePath/package.json`, or `none` when that file is absent. -/
def loadPackageJSON (fs : FileSystem) (modulePath : FsPath) : Option PackageJSON :=
  match fs.entries.find? (fun e => e.path == modulePath) with
  | some e => e.pkg
  | none => none

/-- Embedding of `Walker.relativeModule` (lines 19–21):
`path.resolve(rootPath, 'node_modules', moduleName)`. -/
def relativeModule (rootPath : FsPath) (moduleName : String) : FsPath :=
  rootPath ++ "node_modules" :: splitName moduleName

/-- The ascent step of the `while` loop of
`loadProductionDependenciesForModuleInModule` (lines 41–44): the update
applied to `testPath` when the current candidate does not exist. -/
def nextTestPath (testPath : FsPath) : FsPath :=
  let t := if basename (dirname testPath) ≠ "node_modules" then dirname testPath else testPath
  dirname (dirname t)

/-- The `while` loop of `loadProductionDependenciesForModuleInModule`
(lines 32–46), with explicit fuel: `none` means the fuel ran out with the
loop still running, `some none` that the loop stopped because the newly
computed candidate equalled the previous iteration's candidate without
having been found, and `some (some d)` that candidate `d` exists on disk. -/
def findModuleLoop (fs : FileSystem) (moduleName : String) :
    Nat → FsPath → Option FsPath → Option (Option FsPath)
  | 0, _, _ => none
  | fuel+1, testPath, lastRelative =>
    if lastRelative = some (relativeModule testPath moduleName) then some none
    else
      let lastRelative := relativeModule testPath moduleName
      if pathExists fs lastRelative then some (some lastRelative)
      else findModuleLoop fs moduleName fuel (nextTestPath testPath) (some lastRelative)

/-- Fuel that always suffices for `findModuleLoop` (proved below). -/
def findFuel (modulePath : FsPath) : Nat := modulePath.length + 2

/-- The resolution performed by `loadProductionDependenciesForModuleInModule`
before its error check: the ancestor search for `moduleName` starting at
`modulePath`. -/
def findModule (fs : FileSystem) (moduleName : String) (modulePath : FsPath) : Option FsPath :=
  (findModuleLoop fs moduleName (findFuel modulePath) modulePath none).getD none

/-- Embedding of the error thrown at lines 48–54: it carries the module name
that could not be located and the module path resolution started from. -/
structure ResolutionError where
  moduleName : String
  fromPath : FsPath

deriving DecidableEq

deriving instance DecidableEq for Except

/-- Outcome of one walker call: `none` when the fuel ran out, otherwise the
thrown error or the updated `prodPaths` accumulator. -/
abbrev WalkResult := Option (Except ResolutionError (List FsPath))

/-- Embedding of `loadProductionDependenciesForModuleInModule` (lines 31–59)
after its search loop: the error check of lines 48–54 and the recursion of
lines 56–58; `step` stands for the recursive call into
`loadProductionDependenciesForModule`. -/
def loadProductionDependenciesForModuleInModule
    (step : FsPath → Bool → List FsPath → WalkResult)
    (fs : FileSystem) (moduleName : String) (modulePath : FsPath)
    (allowMissing : Bool) (prodPaths : List FsPath) : WalkResult :=
  match findModule fs moduleName modulePath with
  | none =>
    if allowMissing then some (Except.ok prodPaths)
    else some (Except.error ⟨moduleName, modulePath⟩)
  | some discoveredPath => step discoveredPath allowMissing prodPaths

/-- Embedding of the `for` loops of lines 73–89: process one dependency map
in order, threading the accumulator and stopping at the first error. -/
def loadDependencyList
    (step : FsPath → Bool → List FsPath → WalkResult) (fs : FileSystem) :
    List (String × String) → FsPath → Bool → List FsPath → WalkResult
  | [], _, _, prodPaths => some (Except.ok prodPaths)
  | (moduleName, _) :: rest, modulePath, allowMissing, prodPaths =>
    match loadProductionDependenciesForModuleInModule step fs moduleName modulePath allowMissing prodPaths with
    | some (Except.ok prodPaths') => loadDependencyList step fs rest modulePath allowMissing prodPaths'
    | r => r

/-- Embedding of `loadProductionDependenciesForModule` (lines 61–90) with
explicit recursion fuel (`none` = fuel exhausted); the accumulator
`prodPaths` is the walker's `this.prodPaths` field, most recently added
path first. -/
def loadProductionDependenciesForModule (fs : FileSystem) :
    Nat → FsPath → Bool → List FsPath → WalkResult
  | 0, _, _, _ => none
  | fuel+1, modulePath, allowMissing, prodPaths =>
    if modulePath ∈ prodPaths then some (Except.ok prodPaths)
    else
      let prodPaths' := modulePath :: prodPaths
      match loadPackageJSON fs modulePath with
      | none => some (Except.ok prodPaths')
      | some pJ =>
        match loadDependencyList (loadProductionDependenciesForModule fs fuel) fs
            pJ.dependencies modulePath allowMissing prodPaths' with
        | some (Except.ok prodPaths'') =>
          loadDependencyList (loadProductionDependenciesForModule fs fuel) fs
            pJ.optionalDependencies modulePath true prodPaths''
        | r => r

/-- Fuel that always suffices for the walker (proved below). -/
def walkFuel (fs : FileSystem) : Nat := fs.entries.length + 2

/-- Embedding of `loadProductionDependencies` (lines 92–96): run the walker
from the root module with a fresh accumulator. -/
def loadProductionDependencies (fs : FileSystem) (rootModule : FsPath) : WalkResult :=
  loadProductionDependenciesForModule fs (walkFuel fs) rootModule false []

/-- Embedding of `fs.remove(p)` (line 113): delete the directory `p` and its
entire subtree. -/
def removePath (fs : FileSystem) (p : FsPath) : FileSystem :=
  ⟨fs.entries.filter (fun e => !(p.isPrefixOf e.path))⟩

/-- Embedding of `fs.readdir(p)`: the names of the immediate children of the
directory `p`. -/
def readdir (fs : FileSystem) (p : FsPath) : List String :=
  ((fs.entries.map (fun e => e.path)).filterMap
    (fun q => if p.isPrefixOf q ∧ q.length = p.length + 1 then q.getLast? else none)).dedup

/-- Embedding of the loop of `pruneModule` over the entries of a scope
directory (lines 105–107): each child of the scope directory is a candidate
module; `step` stands for the recursive call into `pruneModule`. -/
def pruneScoped (step : FsPath → FileSystem → Option FileSystem) :
    List String → FsPath → FileSystem → Option FileSystem
  | [], _, fs => some fs
  | name :: rest, scopePath, fs =>
    match step (scopePath ++ [name]) fs with
    | some fs' => pruneScoped step rest scopePath fs'
    | none => none

/-- Embedding of the body of `pruneModule`'s loop for one entry of a
`node_modules` directory (lines 104–110): a name carrying the scope
character is descended one extra level, any other name is itself a
candidate module; `step` stands for the recursive call into `pruneModule`. -/
def handleEntry (step : FsPath → FileSystem → Option FileSystem)
    (name : String) (nodeModulesPath : FsPath) (fs : FileSystem) : Option FileSystem :=
  if isScoped name then
    pruneScoped step (readdir fs (nodeModulesPath ++ [name])) (nodeModulesPath ++ [name]) fs
  else step (nodeModulesPath ++ [name]) fs

/-- Embedding of the loop of `pruneModule` over the entries of a
`node_modules` directory (lines 103–111). -/
def pruneEntries (step : FsPath → FileSystem → Option FileSystem) :
    List String → FsPath → FileSystem → Option FileSystem
  | [], _, fs => some fs
  | name :: rest, nodeModulesPath, fs =>
    match handleEntry step name nodeModulesPath fs with
    | some fs' => pruneEntries step rest nodeModulesPath fs'
    | none => none

/-- Embedding of `pruneModule` (lines 98–115) with explicit recursion fuel:
a production module's `node_modules` children are pruned recursively, a
non-production module is removed together with its whole subtree. -/
def pruneModule (prodPaths : List FsPath) :
    Nat → FsPath → FileSystem → Option FileSystem
  | 0, _, _ => none
  | fuel+1, modulePath, fs =>
    if modulePath ∈ prodPaths then
      let nodeModulesPath := modulePath ++ ["node_modules"]
      if pathExists fs nodeModulesPath then
        pruneEntries (pruneModule prodPaths fuel) (readdir fs nodeModulesPath) nodeModulesPath fs
      else some fs
    else some (removePath fs modulePath)

/-- The longest path recorded in the filesystem, in segments. -/
def maxPathLength (fs : FileSystem) : Nat :=
  (fs.entries.map (fun e => e.path.length)).foldr max 0

/-- Fuel that always suffices for `pruneModule` (proved below). -/
def pruneFuel (fs : FileSystem) : Nat := maxPathLength fs + 2

/-- Embedding of `prune` (lines 117–120): build the production set, then
prune the tree under the root module. -/
def prune (fs : FileSystem) (rootModule : FsPath) : Option (Except ResolutionError FileSystem) :=
  match loadProductionDependencies fs rootModule with
  | none => none
  | some (Except.error e) => some (Except.error e)
  | some (Except.ok prodPaths) =>
    match pruneModule prodPaths (pruneFuel fs) rootModule fs with
    | none => none
    | some fs' => some (Except.ok fs')

/-- Embedding of `fs.statSync(p).isDirectory()`: every recorded entry of the
modelled filesystem is a directory, and no other path is. -/
def isDirectory (fs : FileSystem) (p : FsPath) : Bool := pathExists fs p

/-- Embedding of `fs.existsSync(path.resolve(p, 'package.json'))`: whether
the directory `p` carries a descriptor file. -/
def hasPackageJSON (fs : FileSystem) (p : FsPath) : Bool :=
  match fs.entries.find? (fun e => e.path == p) with
  | some e => e.pkg.isSome
  | none => false

/-- The `while` loop of `getNearestModuleDirectory` (lines 122–127), with
explicit fuel: walk upward until reaching a directory that contains a
descriptor file; `none` means the loop was still running when the fuel ran
out. -/
def getNearestModuleDirectoryLoop (fs : FileSystem) :
    Nat → FsPath → Option FsPath
  | 0, _ => none
  | fuel+1, tPath =>
    if !(isDirectory fs tPath) || !(hasPackageJSON fs tPath) then
      getNearestModuleDirectoryLoop fs fuel (dirname tPath)
    else some tPath

/-- Embedding of `getNearestModuleDirectory` (lines 122–127), run with fuel
covering the whole ancestor chain of the argument. -/
def getNearestModuleDirectory (fs : FileSystem) (tPath : FsPath) : Option FsPath :=
  getNearestModuleDirectoryLoop fs (tPath.length + 1) tPath

/-- The character sequence of a path's textual form, as `path.resolve`
renders it: each segment preceded by a `/` separator. -/
def renderPathChars (p : FsPath) : List Char :=
  p.foldr (fun s acc => '/' :: (s.data ++ acc)) []

/-- Embedding of JavaScript's `t.indexOf(s) === 0` on two rendered paths
(line 135): the textual form of `s` is a leading substring of the textual
form of `t`.  This is a plain string test: it also accepts a `t` whose
next characters merely continue the final segment name of `s`, such as
`/app/node_modules_backup/...` against `/app/node_modules`. -/
def textStartsWith (s t : FsPath) : Bool :=
  (renderPathChars s).isPrefixOf (renderPathChars t)

/-- Embedding of the predicate built by `getFsCopyIgnoreFunction`
(lines 133–139), as a function of the captured production set, the root
module, the filesystem state at the time the predicate is invoked, and the
queried path; `none` means the owning-module search never terminates.  The
inside-the-installed-tree test is line 135's `tPath.indexOf(nmPath) === 0`,
a textual prefix test on the rendered paths. -/
def fsCopyIgnore (prodPaths : List FsPath) (rootModule : FsPath)
    (fs : FileSystem) (tPath : FsPath) : Option Bool :=
  match getNearestModuleDirectory fs tPath with
  | none => none
  | some dirPath =>
    if textStartsWith (rootModule ++ ["node_modules"]) tPath then
      some (!(prodPaths.contains dirPath))
    else some false

/-- Embedding of `getFsCopyIgnoreFunction` (lines 129–140): build the
production set once, then return the predicate closed over it; the returned
predicate still reads the filesystem passed to it at invocation time. -/
def getFsCopyIgnoreFunction (fs : FileSystem) (rootModule : FsPath) :
    Option (Except ResolutionError (FileSystem → FsPath → Option Bool)) :=
  match loadProductionDependencies fs rootModule with
  | none => none
  | some (Except.error e) => some (Except.error e)
  | some (Except.ok prodPaths) =>
    some (Except.ok (fun fsNow tPath => fsCopyIgnore prodPaths rootModule fsNow tPath))

/-! ### Example fixtures used by the witness theorems -/

/-- Descriptor of the example root: one production dependency `a`, one
development dependency `b`, one optional dependency `c`. -/
def exPJ : PackageJSON := ⟨[("a", "^1.0.0")], [("b", "^1.0.0")], [("c", "^1.0.0")]⟩

/-- A descriptor with no dependencies at all. -/
def exLeaf : PackageJSON := ⟨[], [], []⟩

/-- Example filesystem for C8: beside the installed tree of `/app` sits a
sibling directory `node_modules_backup` whose name merely extends
`node_modules`, holding a module `x` with its own descriptor. -/
def exC8fs : FileSystem := ⟨[
  ⟨["app"], some exLeaf⟩,
  ⟨["app", "node_modules"], none⟩,
  ⟨["app", "node_modules", "a"], some exLeaf⟩,
  ⟨["app", "node_modules_backup"], none⟩,
  ⟨["app", "node_modules_backup", "x"], some exLeaf⟩]⟩

/-- Example filesystem: root `/app` with `a` and `b` installed and `c` absent. -/
def exFs : FileSystem := ⟨[
  ⟨["app"], some exPJ⟩,
  ⟨["app", "node_modules"], none⟩,
  ⟨["app", "node_modules", "a"], some exLeaf⟩,
  ⟨["app", "node_modules", "b"], some exLeaf⟩]⟩

/-! ### The ancestor chain of a path -/

/-- Auxiliary form of `ancestorChain`, recursing on the length bound. -/
def ancestorChainAux : Nat → FsPath → List FsPath
  | 0, p => [p]
  | n+1, p => p :: ancestorChainAux n (dirname p)

/-- The inclusive chain of ancestors of a path, from the path itself down to
the filesystem root. -/
def ancestorChain (p : FsPath) : List FsPath := ancestorChainAux p.length p

/-! ### Claim C7 — the ascent step of the resolver -/

/-- The ascent step exactly as claim C7 words it, read literally: move `D`
to its own parent; then — unless the parent's parent is itself an
installed-packages directory — move up one further level; and in all cases
move up one additional level. -/
def claimedNextTestPath (testPath : FsPath) : FsPath :=
  let p := dirname testPath
  let p := if basename (dirname p) ≠ "node_modules" then dirname p else p
  dirname p

/-! ### Claim C9 — what the ignore predicate depends on -/

/-- A filesystem in which the installed module `a` still carries its
descriptor file. -/
def exC9fs₁ : FileSystem := ⟨[
  ⟨["r"], some exLeaf⟩,
  ⟨["r", "node_modules"], none⟩,
  ⟨["r", "node_modules", "a"], some exLeaf⟩]⟩

/-- The same filesystem after `a`'s descriptor file has been deleted. -/
def exC9fs₂ : FileSystem := ⟨[
  ⟨["r"], some exLeaf⟩,
  ⟨["r", "node_modules"], none⟩,
  ⟨["r", "node_modules", "a"], none⟩]⟩

/-! ### Walker termination -/

/-- The number of recorded directories not yet in the accumulator: the
walker's termination measure. -/
def newCount (fs : FileSystem) (s : List FsPath) : Nat :=
  fs.entries.countP (fun e => !(s.contains e.path))

/-! ### Claim C4 — termination and at-most-once visits -/

/-- Example filesystem with a dependency cycle: the root depends on `a`,
`a` depends on `b`, and `b` depends back on `a`. -/
def exCycFs : FileSystem := ⟨[
  ⟨["r"], some ⟨[("a", "1")], [], []⟩⟩,
  ⟨["r", "node_modules"], none⟩,
  ⟨["r", "node_modules", "a"], some ⟨[("b", "1")], [], []⟩⟩,
  ⟨["r", "node_modules", "b"], some ⟨[("a", "1")], [], []⟩⟩]⟩

/-! ### Claim C3 — reachability along production edges only -/

/-- One dependency edge of the walked graph: module `a` names `b` in its
`dependencies` or `optionalDependencies` map (never `devDependencies`), and
the resolver finds `b` for that name starting from `a`. -/
def DepEdge (fs : FileSystem) (a b : FsPath) : Prop :=
  ∃ (pJ : PackageJSON) (nv : String × String),
    loadPackageJSON fs a = some pJ ∧
    (nv ∈ pJ.dependencies ∨ nv ∈ pJ.optionalDependencies) ∧
    findModule fs nv.1 a = some b

/-- Strip the `devDependencies` map from a descriptor. -/
def stripDevPkg (pJ : PackageJSON) : PackageJSON :=
  ⟨pJ.dependencies, [], pJ.optionalDependencies⟩

/-- The same filesystem with every `devDependencies` map emptied. -/
def stripDev (fs : FileSystem) : FileSystem :=
  ⟨fs.entries.map (fun e => ⟨e.path, e.pkg.map stripDevPkg⟩)⟩

/-- Example filesystem for C6: the root optionally depends on `o`, and `o`
has a required dependency `x` that is installed nowhere. -/
def exPropFs : FileSystem := ⟨[
  ⟨["r"], some ⟨[], [], [("o", "1")]⟩⟩,
  ⟨["r", "node_modules"], none⟩,
  ⟨["r", "node_modules", "o"], some ⟨[("x", "1")], [], []⟩⟩]⟩

/-- Every prefix of a recorded directory that still lies at or below the
given root directory is itself recorded: the shape every real directory
tree has (stated over the finite ancestor chains so that it is decidable
on concrete filesystems). -/
def PrefixClosedUnder (root : FsPath) (g : FileSystem) : Prop :=
  ∀ e ∈ g.entries, ∀ q ∈ ancestorChain e.path, root <+: q → pathExists g q = true

instance (root : FsPath) (g : FileSystem) : Decidable (PrefixClosedUnder root g) :=
  inferInstanceAs (Decidable
    (∀ e ∈ g.entries, ∀ q ∈ ancestorChain e.path, root <+: q → pathExists g q = true))

/-! ### Module directories under an installed tree -/

/-- One step from a module directory to a candidate module directory
directly beneath its `node_modules` directory, exactly as the pruner
enumerates candidates (lines 103–110): an unscoped name occupies one level
below `node_modules`, a scoped name two. -/
inductive ModuleStep : FsPath → FsPath → Prop
  | plain (q : FsPath) (name : String) (h : isScoped name = false) :
      ModuleStep q (q ++ ["node_modules", name])
  | withScope (q : FsPath) (sc name : String) (h : isScoped sc = true) :
      ModuleStep q (q ++ ["node_modules", sc, name])

/-- A chain of module steps whose every source node lies in the given
production set. -/
def GoodChain (prodPaths : List FsPath) (a b : FsPath) : Prop :=
  Relation.ReflTransGen (fun x y => x ∈ prodPaths ∧ ModuleStep x y) a b

/-! ### Where the resolver's discoveries can lie -/

/-- The positions probed by the resolver's ascent, starting from a module
path: the start itself and every iterate of the ascent step. -/
inductive AscentPos : FsPath → FsPath → Prop
  | refl (p : FsPath) : AscentPos p p
  | next (p q : FsPath) (h : AscentPos p q) : AscentPos p (nextTestPath q)

/-! ### Well-formed dependency names -/

/-- A dependency name whose slash-split form matches the installed layout
the pruner enumerates: a single segment not carrying the scope character,
or a scope segment followed by one further segment. -/
def ValidName (name : String) : Prop :=
  match splitName name with
  | [n] => isScoped n = false
  | [sc, _] => isScoped sc = true
  | _ => False

instance (name : String) : Decidable (ValidName name) := by
  unfold ValidName
  rcases splitName name with _ | ⟨a, _ | ⟨b, _ | _⟩⟩ <;> infer_instance

/-- Validity of all dependency names recorded in one optional descriptor. -/
def PkgNamesValid : Option PackageJSON → Prop
  | none => True
  | some pJ =>
    (∀ nv ∈ pJ.dependencies, ValidName nv.1) ∧
    (∀ nv ∈ pJ.optionalDependencies, ValidName nv.1)

instance (o : Option PackageJSON) : Decidable (PkgNamesValid o) :=
  match o with
  | none => isTrue trivial
  | some pJ =>
    inferInstanceAs (Decidable ((∀ nv ∈ pJ.dependencies, ValidName nv.1) ∧
      (∀ nv ∈ pJ.optionalDependencies, ValidName nv.1)))

/-- Every descriptor of the filesystem names its production and optional
dependencies by well-formed installed-layout names. -/
def WellFormedNames (fs : FileSystem) : Prop :=
  ∀ e ∈ fs.entries, PkgNamesValid e.pkg

instance (fs : FileSystem) : Decidable (WellFormedNames fs) :=
  inferInstanceAs (Decidable (∀ e ∈ fs.entries, PkgNamesValid e.pkg))

/-! ### Claim C1 — prune leaves exactly the production set on disk -/

/-- An installed module directory strictly inside the installed tree of
`root`: reachable from `root` by at least one candidate-enumeration step. -/
def ModuleDirUnder (root q : FsPath) : Prop :=
  Relation.ReflTransGen ModuleStep root q ∧ q ≠ root

/-- The example filesystem after pruning: the development-only module `b`
is gone. -/
def exFsPruned : FileSystem := ⟨[
  ⟨["app"], some exPJ⟩,
  ⟨["app", "node_modules"], none⟩,
  ⟨["app", "node_modules", "a"], some exLeaf⟩]⟩

/-! ### Basic lemmas about paths and the filesystem model -/

theorem isPrefixOf_iff {l₁ l₂ : List String} : l₁.isPrefixOf l₂ = true ↔ l₁ <+: l₂ :=
  List.isPrefixOf_iff_prefix

theorem pathExists_iff {fs : FileSystem} {p : FsPath} :
    pathExists fs p = true ↔ ∃ e ∈ fs.entries, e.path = p := by
  simp [pathExists]

theorem dirname_concat (l : List String) (a : String) : dirname (l ++ [a]) = l := by
  simp [dirname]

theorem basename_concat (l : List String) (a : String) : basename (l ++ [a]) = a := by
  simp [basename]

theorem dirname_nil : dirname ([] : FsPath) = [] := rfl

theorem nextTestPath_nil : nextTestPath [] = [] := rfl

theorem nextTestPath_length_lt {p : FsPath} (h : p ≠ []) :
    (nextTestPath p).length < p.length := by
  have hp : 0 < p.length := List.length_pos.mpr h
  simp only [nextTestPath, dirname]
  split <;> simp [List.length_dropLast] <;> omega

theorem nextTestPath_plain (X : List String) (name : String) :
    nextTestPath (X ++ ["node_modules", name]) = X := by
  have h1 : X ++ ["node_modules", name] = (X ++ ["node_modules"]) ++ [name] := by simp
  rw [nextTestPath, h1, dirname_concat, basename_concat]
  simp [dirname_concat, dirname]

theorem nextTestPath_scoped (X : List String) (scope name : String)
    (hs : scope ≠ "node_modules") :
    nextTestPath (X ++ ["node_modules", scope, name]) = X := by
  have h1 : X ++ ["node_modules", scope, name] =
      ((X ++ ["node_modules"]) ++ [scope]) ++ [name] := by simp
  rw [nextTestPath, h1, dirname_concat, basename_concat]
  simp [hs, dirname_concat, dirname]

theorem isScoped_ne_node_modules {s : String} (h : isScoped s = true) :
    s ≠ "node_modules" := by
  intro hs
  rw [hs] at h
  exact absurd h (by decide)

theorem prefix_snoc_inj {l : FsPath} {a b : String} {q : FsPath}
    (ha : (l ++ [a]) <+: q) (hb : (l ++ [b]) <+: q) : a = b := by
  obtain ⟨u, hu⟩ := ha
  obtain ⟨v, hv⟩ := hb
  rw [← hu] at hv
  have h2 : b :: v = a :: u := by
    refine List.append_cancel_left (?_ : l ++ b :: v = l ++ a :: u)
    simpa using hv
  injection h2 with h3 h4
  exact h3.symm

/-! ### The resolver loop (`loadProductionDependenciesForModuleInModule`, lines 32–46) -/

theorem findModuleLoop_ne_none (fs : FileSystem) (moduleName : String) :
    ∀ fuel (testPath : FsPath) (lastRelative : Option FsPath),
      testPath.length + 2 ≤ fuel →
      findModuleLoop fs moduleName fuel testPath lastRelative ≠ none := by
  intro fuel
  induction fuel with
  | zero => intro tp last h; omega
  | succ fuel ih =>
    intro tp last h
    simp only [findModuleLoop]
    split
    · simp
    · split
      · simp
      · rcases eq_or_ne tp [] with rfl | hne
        · have hf : 1 ≤ fuel := by simpa using h
          obtain ⟨f', rfl⟩ : ∃ f', fuel = f' + 1 := ⟨fuel - 1, by omega⟩
          simp [findModuleLoop, nextTestPath_nil]
        · exact ih _ _ (by have := nextTestPath_length_lt hne; omega)

theorem findModuleLoop_found (fs : FileSystem) (moduleName : String) :
    ∀ fuel (testPath : FsPath) (lastRelative : Option FsPath) (d : FsPath),
      findModuleLoop fs moduleName fuel testPath lastRelative = some (some d) →
      pathExists fs d = true := by
  intro fuel
  induction fuel with
  | zero => intro tp last d h; simp [findModuleLoop] at h
  | succ fuel ih =>
    intro tp last d h
    simp only [findModuleLoop] at h
    split at h
    · simp at h
    · split at h
      · rename_i hex
        obtain rfl : relativeModule tp moduleName = d := by simpa using h
        exact hex
      · exact ih _ _ _ h

theorem findModule_pathExists {fs : FileSystem} {moduleName : String} {modulePath d : FsPath}
    (h : findModule fs moduleName modulePath = some d) : pathExists fs d = true := by
  unfold findModule at h
  cases hr : findModuleLoop fs moduleName (findFuel modulePath) modulePath none with
  | none => simp [hr] at h
  | some r =>
    cases r with
    | none => simp [hr] at h
    | some d' =>
      rw [hr] at h
      simp only [Option.getD_some] at h
      obtain rfl : d' = d := Option.some.inj h
      exact findModuleLoop_found fs moduleName _ _ _ _ hr

theorem ancestorChain_cons {p : FsPath} (h : p ≠ []) :
    ancestorChain p = p :: ancestorChain (dirname p) := by
  obtain ⟨k, hk⟩ : ∃ k, p.length = k + 1 :=
    ⟨p.length - 1, by have := List.length_pos.mpr h; omega⟩
  have hd : (dirname p).length = k := by
    simp [dirname, List.length_dropLast, hk]
  simp [ancestorChain, hk, hd, ancestorChainAux]

theorem ancestorChain_dirname_subset (p : FsPath) :
    ∀ a ∈ ancestorChain (dirname p), a ∈ ancestorChain p := by
  rcases eq_or_ne p [] with rfl | h
  · intro a ha; simpa [dirname_nil] using ha
  · intro a ha; rw [ancestorChain_cons h]; exact List.mem_cons_of_mem _ ha

theorem self_mem_ancestorChain (p : FsPath) : p ∈ ancestorChain p := by
  rcases eq_or_ne p [] with rfl | h
  · simp [ancestorChain, ancestorChainAux]
  · rw [ancestorChain_cons h]; exact List.mem_cons_self _ _

/-! ### The owning-module search (`getNearestModuleDirectory`, lines 122–127) -/

theorem getNearestModuleDirectoryLoop_succ (fs : FileSystem) (fuel : Nat) (q : FsPath) :
    getNearestModuleDirectoryLoop fs (fuel+1) q =
      if (isDirectory fs q && hasPackageJSON fs q) = true then some q
      else getNearestModuleDirectoryLoop fs fuel (dirname q) := by
  simp only [getNearestModuleDirectoryLoop]
  cases hd : isDirectory fs q <;> cases hp : hasPackageJSON fs q <;> simp [hd, hp]

theorem getNearestModuleDirectoryLoop_of_find (fs : FileSystem) :
    ∀ (n : Nat) (q d : FsPath),
      (ancestorChainAux n q).find? (fun a => isDirectory fs a && hasPackageJSON fs a) = some d →
      getNearestModuleDirectoryLoop fs (n+1) q = some d := by
  intro n
  induction n with
  | zero =>
    intro q d h
    simp only [ancestorChainAux, List.find?] at h
    rw [getNearestModuleDirectoryLoop_succ]
    rcases hc : (isDirectory fs q && hasPackageJSON fs q) with _ | _ <;> simp [hc] at h ⊢
    · exact h
  | succ n ih =>
    intro q d h
    simp only [ancestorChainAux, List.find?] at h
    rw [getNearestModuleDirectoryLoop_succ]
    rcases hc : (isDirectory fs q && hasPackageJSON fs q) with _ | _ <;> rw [hc] at h
    · simpa using ih (dirname q) d h
    · simpa using h

theorem getNearestModuleDirectory_of_find {fs : FileSystem} {tPath d : FsPath}
    (h : (ancestorChain tPath).find? (fun a => isDirectory fs a && hasPackageJSON fs a) = some d) :
    getNearestModuleDirectory fs tPath = some d :=
  getNearestModuleDirectoryLoop_of_find fs tPath.length tPath d h

theorem getNearestModuleDirectoryLoop_none (fs : FileSystem) :
    ∀ (fuel : Nat) (q : FsPath),
      (∀ a ∈ ancestorChain q, (isDirectory fs a && hasPackageJSON fs a) = false) →
      getNearestModuleDirectoryLoop fs fuel q = none := by
  intro fuel
  induction fuel with
  | zero => intro q _; rfl
  | succ fuel ih =>
    intro q h
    rw [getNearestModuleDirectoryLoop_succ, h q (self_mem_ancestorChain q)]
    simp only [Bool.false_eq_true, if_false]
    exact ih (dirname q) (fun a ha => h a (ancestorChain_dirname_subset q a ha))

/-! ### Claim C5 — resolver termination and the error conditions -/

/-- C5: the ancestor search of the resolver always terminates within
`findFuel` steps; it reports "not found" exactly at a state whose newly
computed candidate equals the previous iteration's candidate, and otherwise
either returns an existing candidate or ascends; when nothing was found and
`allowMissing` is false, the dependency loop stops at once with an error
carrying the dependency name and the directory resolution started from,
while with `allowMissing` true no error is raised and the dependency is
skipped with the accumulated production set unchanged. -/
theorem claim_C5 (fs : FileSystem) (moduleName : String) :
    (∀ (testPath : FsPath) (lastRelative : Option FsPath),
      ∃ r, findModuleLoop fs moduleName (findFuel testPath) testPath lastRelative = some r) ∧
    (∀ (fuel : Nat) (testPath : FsPath),
      findModuleLoop fs moduleName (fuel+1) testPath
        (some (relativeModule testPath moduleName)) = some none) ∧
    (∀ (fuel : Nat) (testPath : FsPath) (lastRelative : Option FsPath),
      lastRelative ≠ some (relativeModule testPath moduleName) →
      pathExists fs (relativeModule testPath moduleName) = false →
      findModuleLoop fs moduleName (fuel+1) testPath lastRelative =
        findModuleLoop fs moduleName fuel (nextTestPath testPath)
          (some (relativeModule testPath moduleName))) ∧
    (∀ (step : FsPath → Bool → List FsPath → WalkResult) (modulePath : FsPath)
        (versionRange : String) (rest : List (String × String)) (prodPaths : List FsPath),
      findModule fs moduleName modulePath = none →
      loadDependencyList step fs ((moduleName, versionRange) :: rest) modulePath false prodPaths =
        some (Except.error ⟨moduleName, modulePath⟩)) ∧
    (∀ (step : FsPath → Bool → List FsPath → WalkResult) (modulePath : FsPath)
        (versionRange : String) (rest : List (String × String)) (prodPaths : List FsPath),
      findModule fs moduleName modulePath = none →
      loadDependencyList step fs ((moduleName, versionRange) :: rest) modulePath true prodPaths =
        loadDependencyList step fs rest modulePath true prodPaths) := by
  refine ⟨?_, ?_, ?_, ?_, ?_⟩
  · intro tp last
    cases hr : findModuleLoop fs moduleName (findFuel tp) tp last with
    | none => exact absurd hr (findModuleLoop_ne_none fs moduleName _ tp last (by simp [findFuel]))
    | some r => exact ⟨r, rfl⟩
  · intro fuel tp
    simp [findModuleLoop]
  · intro fuel tp last hne hex
    simp [findModuleLoop, hne, hex]
  · intro step modulePath vr rest prodPaths h
    simp [loadDependencyList, loadProductionDependenciesForModuleInModule, h]
  · intro step modulePath vr rest prodPaths h
    simp [loadDependencyList, loadProductionDependenciesForModuleInModule, h]

/-- Witness for C5 at a concrete input: in the example filesystem the name
`zz` resolves nowhere from `/app`, so with `allowMissing` false the loop
yields the error for `zz` from `/app`, with `allowMissing` true it skips. -/
theorem claim_C5_witness :
    (∃ r, findModuleLoop exFs "zz" (findFuel ["app"]) ["app"] none = some r) ∧
    loadDependencyList (fun _ _ _ => none) exFs [("zz", "1")] ["app"] false [["app"]] =
      some (Except.error ⟨"zz", ["app"]⟩) ∧
    loadDependencyList (fun _ _ _ => none) exFs [("zz", "1")] ["app"] true [["app"]] =
      some (Except.ok [["app"]]) := by
  refine ⟨(claim_C5 exFs "zz").1 ["app"] none, ?_, ?_⟩
  · exact (claim_C5 exFs "zz").2.2.2.1 _ ["app"] "1" [] [["app"]] (by decide)
  · rw [(claim_C5 exFs "zz").2.2.2.2 _ ["app"] "1" [] [["app"]] (by decide)]
    rfl

/-- Counterexample to C7 as stated: for an unscoped installation directory
`x/node_modules/y` the code's ascent step lands on `x` while the claimed
recipe lands on the filesystem root, and for a scoped installation
directory `x/node_modules/@s/y` the code lands on `x` while the claimed
recipe lands on `x/node_modules`. -/
theorem claim_C7_counterexample :
    nextTestPath ["x", "node_modules", "y"] ≠
      claimedNextTestPath ["x", "node_modules", "y"] ∧
    nextTestPath ["x", "node_modules", "@s", "y"] ≠
      claimedNextTestPath ["x", "node_modules", "@s", "y"] ∧
    nextTestPath ["x", "node_modules", "y"] = ["x"] ∧
    claimedNextTestPath ["x", "node_modules", "y"] = [] ∧
    nextTestPath ["x", "node_modules", "@s", "y"] = ["x"] ∧
    claimedNextTestPath ["x", "node_modules", "@s", "y"] = ["x", "node_modules"] := by
  decide

/-- C7 amended: in the ascent step, `D` is first moved to its own parent
exactly when that parent is not itself an installed-packages directory
(i.e. when `D` is the direct installation directory of a scoped package, or
is not directly inside an installed-packages directory at all), and in all
cases two further parent steps are then taken; consequently the next probe
directory for a package installed at `X/node_modules/name` is `X`, and for
a scoped package installed at `X/node_modules/@scope/name` it is also `X` —
the package directory owning the enclosing installed-packages directory. -/
theorem claim_C7 :
    (∀ testPath : FsPath,
      nextTestPath testPath =
        dirname (dirname
          (if basename (dirname testPath) ≠ "node_modules" then dirname testPath else testPath))) ∧
    (∀ (X : List String) (name : String),
      nextTestPath (X ++ ["node_modules", name]) = X) ∧
    (∀ (X : List String) (scope name : String), scope ≠ "node_modules" →
      nextTestPath (X ++ ["node_modules", scope, name]) = X) := by
  exact ⟨fun _ => rfl, nextTestPath_plain, nextTestPath_scoped⟩

/-- Witness for the amended C7 at a concrete scoped input. -/
theorem claim_C7_witness :
    nextTestPath (["x"] ++ ["node_modules", "@s", "y"]) = ["x"] :=
  claim_C7.2.2 ["x"] "@s" "y" (by decide)

/-! ### Claim C8 — the ignore predicate's answer -/

theorem renderPathChars_cons (s : String) (p : FsPath) :
    renderPathChars (s :: p) = '/' :: (s.data ++ renderPathChars p) := rfl

theorem renderPathChars_append (p q : FsPath) :
    renderPathChars (p ++ q) = renderPathChars p ++ renderPathChars q := by
  induction p with
  | nil => rfl
  | cons s p ih => simp [renderPathChars_cons, ih]

theorem textStartsWith_of_le {s t : FsPath} (h : s <+: t) :
    textStartsWith s t = true := by
  obtain ⟨u, rfl⟩ := h
  unfold textStartsWith
  rw [renderPathChars_append]
  exact List.isPrefixOf_iff_prefix.mpr ⟨renderPathChars u, rfl⟩

/-- Counterexample to C8 as stated: the sibling directory
`node_modules_backup` lies outside the root's installed-packages subtree,
but the textual test of line 135 (`tPath.indexOf(nmPath) === 0`) accepts
its rendered form, so for a file under its module `x` — whose nearest
descriptor-carrying ancestor is no member of the captured set — the
predicate answers "skip" where the claim requires "do not skip". -/
theorem claim_C8_counterexample :
    (["app", "node_modules"] : FsPath).isPrefixOf
        ["app", "node_modules_backup", "x", "lib"] = false ∧
    fsCopyIgnore [["app"], ["app", "node_modules", "a"]] ["app"] exC8fs
      ["app", "node_modules_backup", "x", "lib"] = some true := by
  decide

/-- C8 corrected: the inside-the-subtree test of the returned ignore
predicate is line 135's textual test `tPath.indexOf(nmPath) === 0` on the
rendered paths, not containment in the subtree.  Whenever the owning-module
search finds a nearest ancestor directory `dirPath` carrying a descriptor
file: when the rendered query does not textually start with the rendered
installed-packages path, the predicate answers "do not skip"; when it does
— which also covers sibling directories whose name merely extends
`node_modules`, such as `node_modules_backup` — it answers "skip" exactly
when `dirPath` is not a member of the captured production set.  Genuine
containment in the subtree implies the textual test, so for paths inside
the subtree the skip-iff-not-member half of the claim does hold. -/
theorem claim_C8 (fs : FileSystem) (prodPaths : List FsPath)
    (rootModule tPath dirPath : FsPath)
    (hnear : (ancestorChain tPath).find?
      (fun a => isDirectory fs a && hasPackageJSON fs a) = some dirPath) :
    (textStartsWith (rootModule ++ ["node_modules"]) tPath = false →
      fsCopyIgnore prodPaths rootModule fs tPath = some false) ∧
    (textStartsWith (rootModule ++ ["node_modules"]) tPath = true →
      fsCopyIgnore prodPaths rootModule fs tPath = some (!(prodPaths.contains dirPath))) ∧
    ((rootModule ++ ["node_modules"]) <+: tPath →
      fsCopyIgnore prodPaths rootModule fs tPath = some (!(prodPaths.contains dirPath))) ∧
    (∀ (l : List FsPath) (d : FsPath), (!(l.contains d)) = true ↔ d ∉ l) := by
  have hget := getNearestModuleDirectory_of_find hnear
  refine ⟨?_, ?_, ?_, ?_⟩
  · intro hpre
    simp [fsCopyIgnore, hget, hpre]
  · intro hpre
    simp [fsCopyIgnore, hget, hpre]
  · intro hin
    simp [fsCopyIgnore, hget, textStartsWith_of_le hin]
  · intro l d
    simp

/-- Witness for the corrected C8 at concrete inputs: a file genuinely
inside the dev-only module `b` is skipped (through the containment
conjunct), and a file whose rendered form does not start with the rendered
installed-packages path is not skipped. -/
theorem claim_C8_witness :
    fsCopyIgnore [["app"]] ["app"] exFs ["app", "node_modules", "b", "lib"] =
      some (!([[ "app" ]].contains ["app", "node_modules", "b"])) ∧
    fsCopyIgnore [["app"]] ["app"] exFs ["app", "src"] = some false := by
  constructor
  · exact (claim_C8 exFs [["app"]] ["app"] _ _ (by decide)).2.2.1 (by decide)
  · exact (claim_C8 exFs [["app"]] ["app"] ["app", "src"] ["app"] (by decide)).1 (by decide)

/-- Counterexample to C9 as stated: the returned predicate is not
independent of the filesystem state at invocation time — with the same
captured production set and the same queried path, deleting one descriptor
file between two invocations flips the answer. -/
theorem claim_C9_counterexample :
    fsCopyIgnore [["r"]] ["r"] exC9fs₁ ["r", "node_modules", "a", "lib"] = some true ∧
    fsCopyIgnore [["r"]] ["r"] exC9fs₂ ["r", "node_modules", "a", "lib"] = some false ∧
    fsCopyIgnore [["r"]] ["r"] exC9fs₁ ["r", "node_modules", "a", "lib"] ≠
      fsCopyIgnore [["r"]] ["r"] exC9fs₂ ["r", "node_modules", "a", "lib"] := by
  decide

/-- C9 amended: the returned predicate is a pure function of the captured
production set, the queried path, and the filesystem state along the
queried path's ancestor chain at invocation time: two invocations agreeing
on those three agree on the answer (and the predicate performs no writes —
in this embedding it only reads the filesystem argument). -/
theorem claim_C9 (prodPaths : List FsPath) (rootModule tPath : FsPath)
    (fs₁ fs₂ : FileSystem)
    (h : ∀ a ∈ ancestorChain tPath,
      isDirectory fs₁ a = isDirectory fs₂ a ∧ hasPackageJSON fs₁ a = hasPackageJSON fs₂ a) :
    fsCopyIgnore prodPaths rootModule fs₁ tPath = fsCopyIgnore prodPaths rootModule fs₂ tPath := by
  have hloop : ∀ (fuel : Nat) (q : FsPath),
      (∀ a ∈ ancestorChain q,
        isDirectory fs₁ a = isDirectory fs₂ a ∧ hasPackageJSON fs₁ a = hasPackageJSON fs₂ a) →
      getNearestModuleDirectoryLoop fs₁ fuel q = getNearestModuleDirectoryLoop fs₂ fuel q := by
    intro fuel
    induction fuel with
    | zero => intro q _; rfl
    | succ fuel ih =>
      intro q hq
      have hself := hq q (self_mem_ancestorChain q)
      rw [getNearestModuleDirectoryLoop_succ, getNearestModuleDirectoryLoop_succ,
        hself.1, hself.2, ih (dirname q) (fun a ha => hq a (ancestorChain_dirname_subset q a ha))]
  unfold fsCopyIgnore getNearestModuleDirectory
  rw [hloop (tPath.length + 1) tPath h]

/-- Witness for the amended C9: adding an entry irrelevant to the queried
path's ancestor chain does not change the predicate's answer. -/
theorem claim_C9_witness :
    fsCopyIgnore [["r"]] ["r"] exC9fs₁ ["r", "node_modules", "a", "lib"] =
      fsCopyIgnore [["r"]] ["r"] ⟨exC9fs₁.entries ++ [⟨["z"], none⟩]⟩
        ["r", "node_modules", "a", "lib"] :=
  claim_C9 [["r"]] ["r"] ["r", "node_modules", "a", "lib"] exC9fs₁
    ⟨exC9fs₁.entries ++ [⟨["z"], none⟩]⟩ (by decide)

/-! ### Claim C10 — termination of the owning-module search -/

/-- C10: the owning-module search terminates when some inclusive ancestor
of the queried path is a directory carrying a descriptor file; when no
directory on the chain up to the filesystem root carries one, the loop runs
forever (it returns `none` for every amount of fuel), because the parent of
the filesystem root is the filesystem root itself. -/
theorem claim_C10 (fs : FileSystem) (tPath : FsPath) :
    ((∃ a ∈ ancestorChain tPath, (isDirectory fs a && hasPackageJSON fs a) = true) →
      ∃ d, getNearestModuleDirectory fs tPath = some d) ∧
    ((∀ a ∈ ancestorChain tPath, (isDirectory fs a && hasPackageJSON fs a) = false) →
      ∀ fuel, getNearestModuleDirectoryLoop fs fuel tPath = none) ∧
    dirname ([] : FsPath) = [] := by
  refine ⟨?_, ?_, rfl⟩
  · intro hex
    have : ((ancestorChain tPath).find?
        (fun a => isDirectory fs a && hasPackageJSON fs a)).isSome := by
      rw [List.find?_isSome]
      obtain ⟨a, ha, hc⟩ := hex
      exact ⟨a, ha, hc⟩
    obtain ⟨d, hd⟩ := Option.isSome_iff_exists.mp this
    exact ⟨d, getNearestModuleDirectory_of_find hd⟩
  · intro hall fuel
    exact getNearestModuleDirectoryLoop_none fs fuel tPath hall

/-- Witness for C10: in the example filesystem the search from a file below
`a` terminates, while on an empty filesystem it never does. -/
theorem claim_C10_witness :
    (∃ d, getNearestModuleDirectory exFs ["app", "node_modules", "a", "lib"] = some d) ∧
    getNearestModuleDirectoryLoop ⟨[]⟩ 5 ["x", "y"] = none :=
  ⟨(claim_C10 exFs ["app", "node_modules", "a", "lib"]).1 (by decide),
   (claim_C10 ⟨[]⟩ ["x", "y"]).2.1 (by decide) 5⟩

/-! ### Walker accumulator growth -/

theorem loadPDFMIM_ok_suffix {step : FsPath → Bool → List FsPath → WalkResult}
    {fs : FileSystem}
    (Hstep : ∀ d am s r, step d am s = some (Except.ok r) → s <:+ r)
    {moduleName : String} {modulePath : FsPath} {am : Bool} {s r : List FsPath}
    (h : loadProductionDependenciesForModuleInModule step fs moduleName modulePath am s =
      some (Except.ok r)) : s <:+ r := by
  unfold loadProductionDependenciesForModuleInModule at h
  split at h
  · split at h
    · obtain rfl : s = r := by simpa using h
      exact List.suffix_refl _
    · exact absurd h (by simp)
  · exact Hstep _ am s r h

theorem loadDependencyList_ok_suffix {step : FsPath → Bool → List FsPath → WalkResult}
    {fs : FileSystem}
    (Hstep : ∀ d am s r, step d am s = some (Except.ok r) → s <:+ r) :
    ∀ (lst : List (String × String)) (modulePath : FsPath) (am : Bool) (s r : List FsPath),
      loadDependencyList step fs lst modulePath am s = some (Except.ok r) → s <:+ r := by
  intro lst
  induction lst with
  | nil =>
    intro p am s r h
    simp only [loadDependencyList] at h
    obtain rfl : s = r := by simpa using h
    exact List.suffix_refl _
  | cons head rest ih =>
    obtain ⟨nm, vr⟩ := head
    intro p am s r h
    simp only [loadDependencyList] at h
    split at h
    · rename_i s₁ hv
      exact (loadPDFMIM_ok_suffix Hstep hv).trans (ih p am s₁ r h)
    · rename_i hv
      exact absurd h (fun hh => hv r hh)

theorem loadPDFM_ok_suffix (fs : FileSystem) :
    ∀ (fuel : Nat) (modulePath : FsPath) (am : Bool) (s r : List FsPath),
      loadProductionDependenciesForModule fs fuel modulePath am s = some (Except.ok r) →
      s <:+ r := by
  intro fuel
  induction fuel with
  | zero => intro p am s r h; exact absurd h (by simp [loadProductionDependenciesForModule])
  | succ fuel ih =>
    intro p am s r h
    simp only [loadProductionDependenciesForModule] at h
    split at h
    · obtain rfl : s = r := by simpa using h
      exact List.suffix_refl _
    · have hcons : s <:+ p :: s := List.suffix_cons p s
      split at h
      · obtain rfl : p :: s = r := by simpa using h
        exact hcons
      · split at h
        · rename_i s₂ hd
          have h₁ : p :: s <:+ s₂ := loadDependencyList_ok_suffix ih _ p am _ _ hd
          have h₂ : s₂ <:+ r := loadDependencyList_ok_suffix ih _ p true _ _ h
          exact hcons.trans (h₁.trans h₂)
        · rename_i hne
          exact absurd h (fun hh => hne r hh)

theorem loadPDFM_ok_mem {fs : FileSystem} {fuel : Nat} {modulePath : FsPath}
    {am : Bool} {s r : List FsPath}
    (h : loadProductionDependenciesForModule fs fuel modulePath am s = some (Except.ok r)) :
    modulePath ∈ r := by
  cases fuel with
  | zero => exact absurd h (by simp [loadProductionDependenciesForModule])
  | succ fuel =>
    simp only [loadProductionDependenciesForModule] at h
    split at h
    · rename_i hmem
      obtain rfl : s = r := by simpa using h
      exact hmem
    · have hsub : modulePath :: s <:+ r := by
        split at h
        · obtain rfl : modulePath :: s = r := by simpa using h
          exact List.suffix_refl _
        · split at h
          · rename_i s₂ hd
            exact (loadDependencyList_ok_suffix (loadPDFM_ok_suffix fs fuel) _ _ am _ _ hd).trans
              (loadDependencyList_ok_suffix (loadPDFM_ok_suffix fs fuel) _ _ true _ _ h)
          · rename_i hd
            exact loadDependencyList_ok_suffix (loadPDFM_ok_suffix fs fuel) _ _ am _ _ h
      exact hsub.subset (List.mem_cons_self _ _)

/-! ### Claim C2 — the root is always a member -/

/-- C2: on every successful run, the root module path is a member of the
returned production set; the theorem places no requirement on the root's
descriptor file, so it covers a root with no descriptor at all. -/
theorem claim_C2 (fs : FileSystem) (rootModule : FsPath) (r : List FsPath)
    (h : loadProductionDependencies fs rootModule = some (Except.ok r)) :
    rootModule ∈ r :=
  loadPDFM_ok_mem h

/-- Witness for C2 at two concrete runs: the example filesystem, and a
filesystem in which the root has no descriptor file at all. -/
theorem claim_C2_witness :
    ["app"] ∈ [["app", "node_modules", "a"], ["app"]] ∧ ["r"] ∈ [["r"]] :=
  ⟨claim_C2 exFs ["app"] _ (by decide), claim_C2 ⟨[]⟩ ["r"] _ (by decide)⟩

theorem newCount_le (fs : FileSystem) (s : List FsPath) :
    newCount fs s ≤ fs.entries.length :=
  List.countP_le_length _

theorem newCount_mono {fs : FileSystem} {s r : List FsPath} (h : s ⊆ r) :
    newCount fs r ≤ newCount fs s := by
  refine List.countP_mono_left ?_
  intro e _ hc
  simp only [Bool.not_eq_true', ← Bool.not_eq_true] at hc ⊢
  intro hs
  exact hc (by simpa using h (by simpa using hs))

theorem countP_lt_of_witness {α : Type} {l : List α} {p q : α → Bool}
    (hmono : ∀ a ∈ l, p a = true → q a = true) {a : α} (ha : a ∈ l)
    (hp : p a = false) (hq : q a = true) : l.countP p < l.countP q := by
  induction l with
  | nil => cases ha
  | cons b t ih =>
    rw [List.countP_cons, List.countP_cons]
    have hmt : ∀ x ∈ t, p x = true → q x = true :=
      fun x hx => hmono x (List.mem_cons_of_mem _ hx)
    rcases List.mem_cons.mp ha with rfl | hat
    · rw [hp, hq]
      have := List.countP_mono_left hmt
      simp only [if_true, Bool.false_eq_true, if_false]
      omega
    · have h1 := ih hmt hat
      have hbq : (if p b = true then 1 else 0) ≤ (if q b = true then 1 else 0) := by
        rcases hb : p b with _ | _
        · simp
        · rw [hmono b (List.mem_cons_self _ _) hb]
      omega

theorem newCount_lt {fs : FileSystem} {s : List FsPath} {d : FsPath}
    (hex : pathExists fs d = true) (hd : d ∉ s) :
    newCount fs (d :: s) < newCount fs s := by
  obtain ⟨e, he, hep⟩ := pathExists_iff.mp hex
  refine countP_lt_of_witness ?_ he ?_ ?_
  · intro a _ hc
    simp only [Bool.not_eq_true', ← Bool.not_eq_true] at hc ⊢
    intro hs
    exact hc (by simp [List.contains_cons]; right; simpa using hs)
  · simp [hep, List.contains_cons]
  · simp only [Bool.not_eq_true', ← Bool.not_eq_true]
    intro hc
    exact hd (by rw [hep] at hc; simpa using hc)

theorem loadDependencyList_ne_none {fs : FileSystem} {fuel : Nat}
    {step : FsPath → Bool → List FsPath → WalkResult}
    (HstepT : ∀ d am t, pathExists fs d = true → newCount fs t + 1 ≤ fuel → step d am t ≠ none)
    (HstepS : ∀ d am t r, step d am t = some (Except.ok r) → t <:+ r) :
    ∀ (lst : List (String × String)) (modulePath : FsPath) (am : Bool) (s : List FsPath),
      newCount fs s + 1 ≤ fuel → loadDependencyList step fs lst modulePath am s ≠ none := by
  intro lst
  induction lst with
  | nil => intro p am s _; simp [loadDependencyList]
  | cons head rest ih =>
    obtain ⟨nm, vr⟩ := head
    intro p am s hb
    cases hf : findModule fs nm p with
    | none =>
      cases am
      · simp [loadDependencyList, loadProductionDependenciesForModuleInModule, hf]
      · simp only [loadDependencyList, loadProductionDependenciesForModuleInModule, hf,
          if_true]
        exact ih p true s hb
    | some d =>
      have hT := HstepT d am s (findModule_pathExists hf) hb
      cases hs : step d am s with
      | none => exact absurd hs hT
      | some v =>
        cases v with
        | error e => simp [loadDependencyList, loadProductionDependenciesForModuleInModule, hf, hs]
        | ok s₁ =>
          have hle : newCount fs s₁ ≤ newCount fs s := newCount_mono (HstepS d am s s₁ hs).subset
          simp only [loadDependencyList, loadProductionDependenciesForModuleInModule, hf, hs]
          exact ih p am s₁ (by omega)

theorem loadPDFM_ne_none (fs : FileSystem) :
    ∀ (fuel : Nat) (d : FsPath) (am : Bool) (t : List FsPath),
      pathExists fs d = true → newCount fs t + 1 ≤ fuel →
      loadProductionDependenciesForModule fs fuel d am t ≠ none := by
  intro fuel
  induction fuel with
  | zero => intro d am t _ hb; exact absurd hb (by omega)
  | succ fuel ih =>
    intro d am t hex hb
    simp only [loadProductionDependenciesForModule]
    split
    · simp
    · rename_i hdt
      cases hpj : loadPackageJSON fs d with
      | none => simp [hpj]
      | some pJ =>
        have hb' : newCount fs (d :: t) + 1 ≤ fuel := by
          have := newCount_lt hex hdt; omega
        have H1 := loadDependencyList_ne_none ih (loadPDFM_ok_suffix fs fuel)
          pJ.dependencies d am (d :: t) hb'
        cases hd1 : loadDependencyList (loadProductionDependenciesForModule fs fuel) fs
            pJ.dependencies d am (d :: t) with
        | none => exact absurd hd1 H1
        | some v =>
          cases v with
          | error e => simp [hpj, hd1]
          | ok s₂ =>
            have hle : newCount fs s₂ ≤ newCount fs (d :: t) :=
              newCount_mono (loadDependencyList_ok_suffix (loadPDFM_ok_suffix fs fuel)
                _ d am _ _ hd1).subset
            have H2 := loadDependencyList_ne_none ih (loadPDFM_ok_suffix fs fuel)
              pJ.optionalDependencies d true s₂ (by omega)
            simp only [hpj, hd1]
            exact H2

theorem loadPDFM_succ (fs : FileSystem) (fuel : Nat) (modulePath : FsPath) (am : Bool)
    (prodPaths : List FsPath) :
    loadProductionDependenciesForModule fs (fuel+1) modulePath am prodPaths =
      if modulePath ∈ prodPaths then some (Except.ok prodPaths)
      else
        match loadPackageJSON fs modulePath with
        | none => some (Except.ok (modulePath :: prodPaths))
        | some pJ =>
          match loadDependencyList (loadProductionDependenciesForModule fs fuel) fs
              pJ.dependencies modulePath am (modulePath :: prodPaths) with
          | some (Except.ok prodPaths'') =>
            loadDependencyList (loadProductionDependenciesForModule fs fuel) fs
              pJ.optionalDependencies modulePath true prodPaths''
          | r => r := rfl

theorem loadPDFM_ne_none_any (fs : FileSystem) :
    ∀ (fuel : Nat) (modulePath : FsPath) (am : Bool) (t : List FsPath),
      newCount fs t + 2 ≤ fuel →
      loadProductionDependenciesForModule fs fuel modulePath am t ≠ none := by
  intro fuel
  cases fuel with
  | zero => intro p am t hb; exact absurd hb (by omega)
  | succ fuel =>
    intro p am t hb
    rw [loadPDFM_succ]
    split
    · simp
    · split
      · simp
      · rename_i pJ hpj
        have hb' : newCount fs (p :: t) + 1 ≤ fuel := by
          have h1 : newCount fs (p :: t) ≤ newCount fs t :=
            newCount_mono (List.subset_cons_self p t)
          omega
        have H1 := loadDependencyList_ne_none (loadPDFM_ne_none fs fuel)
          (loadPDFM_ok_suffix fs fuel) pJ.dependencies p am (p :: t) hb'
        split
        · rename_i s₂ hd1
          have hle : newCount fs s₂ ≤ newCount fs (p :: t) :=
            newCount_mono (loadDependencyList_ok_suffix (loadPDFM_ok_suffix fs fuel)
              _ p am _ _ hd1).subset
          exact loadDependencyList_ne_none (loadPDFM_ne_none fs fuel)
            (loadPDFM_ok_suffix fs fuel) pJ.optionalDependencies p true s₂ (by omega)
        · intro hx
          exact H1 hx

theorem loadProductionDependencies_ne_none (fs : FileSystem) (rootModule : FsPath) :
    loadProductionDependencies fs rootModule ≠ none :=
  loadPDFM_ne_none_any fs (walkFuel fs) rootModule false []
    (by unfold walkFuel; have := newCount_le fs []; omega)

/-! ### Walker accumulator has no duplicates -/

theorem loadPDFMIM_nodup {step : FsPath → Bool → List FsPath → WalkResult}
    {fs : FileSystem}
    (Hstep : ∀ d am s r, step d am s = some (Except.ok r) → s.Nodup → r.Nodup)
    {moduleName : String} {modulePath : FsPath} {am : Bool} {s r : List FsPath}
    (h : loadProductionDependenciesForModuleInModule step fs moduleName modulePath am s =
      some (Except.ok r)) (hs : s.Nodup) : r.Nodup := by
  unfold loadProductionDependenciesForModuleInModule at h
  split at h
  · split at h
    · obtain rfl : s = r := by simpa using h
      exact hs
    · exact absurd h (by simp)
  · exact Hstep _ am s r h hs

theorem loadDependencyList_nodup {step : FsPath → Bool → List FsPath → WalkResult}
    {fs : FileSystem}
    (Hstep : ∀ d am s r, step d am s = some (Except.ok r) → s.Nodup → r.Nodup) :
    ∀ (lst : List (String × String)) (modulePath : FsPath) (am : Bool) (s r : List FsPath),
      loadDependencyList step fs lst modulePath am s = some (Except.ok r) →
      s.Nodup → r.Nodup := by
  intro lst
  induction lst with
  | nil =>
    intro p am s r h hs
    obtain rfl : s = r := by simpa [loadDependencyList] using h
    exact hs
  | cons head rest ih =>
    obtain ⟨nm, vr⟩ := head
    intro p am s r h hs
    simp only [loadDependencyList] at h
    split at h
    · rename_i s₁ hv
      exact ih p am s₁ r h (loadPDFMIM_nodup Hstep hv hs)
    · rename_i hv
      exact absurd h (fun hh => hv r hh)

theorem loadPDFM_nodup (fs : FileSystem) :
    ∀ (fuel : Nat) (modulePath : FsPath) (am : Bool) (s r : List FsPath),
      loadProductionDependenciesForModule fs fuel modulePath am s = some (Except.ok r) →
      s.Nodup → r.Nodup := by
  intro fuel
  induction fuel with
  | zero => intro p am s r h _; exact absurd h (by simp [loadProductionDependenciesForModule])
  | succ fuel ih =>
    intro p am s r h hs
    simp only [loadProductionDependenciesForModule] at h
    split at h
    · obtain rfl : s = r := by simpa using h
      exact hs
    · rename_i hps
      have hs' : (p :: s).Nodup := List.nodup_cons.mpr ⟨hps, hs⟩
      split at h
      · obtain rfl : p :: s = r := by simpa using h
        exact hs'
      · split at h
        · rename_i s₂ hd
          exact loadDependencyList_nodup ih _ p true s₂ r h
            (loadDependencyList_nodup ih _ p am (p :: s) s₂ hd hs')
        · rename_i hne
          exact absurd h (fun hh => hne r hh)

/-- C4: the walker terminates on every dependency graph — including cycles
and diamonds — when given the fuel `loadProductionDependencies` supplies
(the fuelled recursion never runs out); every module path appears at most
once in the resulting set (the result has no duplicates); and revisiting a
module already in the accumulator returns immediately without expanding its
edges again. -/
theorem claim_C4 (fs : FileSystem) (rootModule : FsPath) :
    loadProductionDependencies fs rootModule ≠ none ∧
    (∀ r, loadProductionDependencies fs rootModule = some (Except.ok r) → r.Nodup) ∧
    (∀ (fuel : Nat) (modulePath : FsPath) (am : Bool) (s : List FsPath), modulePath ∈ s →
      loadProductionDependenciesForModule fs (fuel+1) modulePath am s =
        some (Except.ok s)) := by
  refine ⟨loadProductionDependencies_ne_none fs rootModule, ?_, ?_⟩
  · intro r h
    exact loadPDFM_nodup fs (walkFuel fs) rootModule false [] r h List.nodup_nil
  · intro fuel p am s hmem
    simp [loadProductionDependenciesForModule, hmem]

/-- Witness for C4 on the concrete cyclic filesystem: the run terminates,
its result has each of `r`, `a`, `b` exactly once, and revisiting `r` is a
no-op. -/
theorem claim_C4_witness :
    loadProductionDependencies exCycFs ["r"] ≠ none ∧
    [["r", "node_modules", "b"], ["r", "node_modules", "a"], ["r"]].Nodup ∧
    loadProductionDependenciesForModule exCycFs 1 ["r"] false [["r"]] =
      some (Except.ok [["r"]]) :=
  ⟨(claim_C4 exCycFs ["r"]).1,
   (claim_C4 exCycFs ["r"]).2.1 _ (by decide),
   (claim_C4 exCycFs ["r"]).2.2 0 ["r"] false [["r"]] (by decide)⟩

theorem loadPDFMIM_reach {step : FsPath → Bool → List FsPath → WalkResult}
    {fs : FileSystem} (G : FsPath → Prop)
    (Hstep : ∀ d am t r, step d am t = some (Except.ok r) → G d → (∀ x ∈ t, G x) → ∀ x ∈ r, G x)
    {moduleName : String} {modulePath : FsPath} {am : Bool} {s r : List FsPath}
    (h : loadProductionDependenciesForModuleInModule step fs moduleName modulePath am s =
      some (Except.ok r))
    (hGd : ∀ d, findModule fs moduleName modulePath = some d → G d)
    (hs : ∀ x ∈ s, G x) : ∀ x ∈ r, G x := by
  unfold loadProductionDependenciesForModuleInModule at h
  split at h
  · split at h
    · obtain rfl : s = r := by simpa using h
      exact hs
    · exact absurd h (by simp)
  · rename_i d hf
    exact Hstep d am s r h (hGd d hf) hs

theorem loadDependencyList_reach {step : FsPath → Bool → List FsPath → WalkResult}
    {fs : FileSystem} (G : FsPath → Prop)
    (Hstep : ∀ d am t r, step d am t = some (Except.ok r) → G d → (∀ x ∈ t, G x) → ∀ x ∈ r, G x) :
    ∀ (lst : List (String × String)) (modulePath : FsPath) (am : Bool) (s r : List FsPath),
      (∀ nv ∈ lst, ∀ d, findModule fs nv.1 modulePath = some d → G d) →
      loadDependencyList step fs lst modulePath am s = some (Except.ok r) →
      (∀ x ∈ s, G x) → ∀ x ∈ r, G x := by
  intro lst
  induction lst with
  | nil =>
    intro p am s r _ h hs
    obtain rfl : s = r := by simpa [loadDependencyList] using h
    exact hs
  | cons head rest ih =>
    obtain ⟨nm, vr⟩ := head
    intro p am s r hlst h hs
    simp only [loadDependencyList] at h
    split at h
    · rename_i s₁ hv
      have hs₁ : ∀ x ∈ s₁, G x :=
        loadPDFMIM_reach G Hstep hv (fun d hf => hlst (nm, vr) (List.mem_cons_self _ _) d hf) hs
      exact ih p am s₁ r (fun nv hnv => hlst nv (List.mem_cons_of_mem _ hnv)) h hs₁
    · rename_i hv
      exact absurd h (fun hh => hv r hh)

theorem loadPDFM_reach (fs : FileSystem) (G : FsPath → Prop)
    (hG : ∀ a b, DepEdge fs a b → G a → G b) :
    ∀ (fuel : Nat) (modulePath : FsPath) (am : Bool) (s r : List FsPath),
      loadProductionDependenciesForModule fs fuel modulePath am s = some (Except.ok r) →
      G modulePath → (∀ x ∈ s, G x) → ∀ x ∈ r, G x := by
  intro fuel
  induction fuel with
  | zero => intro p am s r h _ _; exact absurd h (by simp [loadProductionDependenciesForModule])
  | succ fuel ih =>
    intro p am s r h hp hs
    simp only [loadProductionDependenciesForModule] at h
    split at h
    · obtain rfl : s = r := by simpa using h
      exact hs
    · have hs' : ∀ x ∈ p :: s, G x := by
        intro x hx
        rcases List.mem_cons.mp hx with rfl | hx
        · exact hp
        · exact hs x hx
      split at h
      · obtain rfl : p :: s = r := by simpa using h
        exact hs'
      · rename_i pJ hpj
        split at h
        · rename_i s₂ hd
          have hlst1 : ∀ nv ∈ pJ.dependencies, ∀ d, findModule fs nv.1 p = some d → G d :=
            fun nv hnv d hf => hG p d ⟨pJ, nv, hpj, Or.inl hnv, hf⟩ hp
          have hs₂ := loadDependencyList_reach G ih pJ.dependencies p am _ s₂ hlst1 hd hs'
          have hlst2 : ∀ nv ∈ pJ.optionalDependencies, ∀ d, findModule fs nv.1 p = some d → G d :=
            fun nv hnv d hf => hG p d ⟨pJ, nv, hpj, Or.inr hnv, hf⟩ hp
          exact loadDependencyList_reach G ih pJ.optionalDependencies p true s₂ r hlst2 h hs₂
        · rename_i hne
          exact absurd h (fun hh => hne r hh)

theorem pathExists_stripDev (fs : FileSystem) (p : FsPath) :
    pathExists (stripDev fs) p = pathExists fs p := by
  unfold pathExists stripDev
  rw [List.any_map]
  rfl

theorem loadPackageJSON_stripDev (fs : FileSystem) (p : FsPath) :
    loadPackageJSON (stripDev fs) p = (loadPackageJSON fs p).map stripDevPkg := by
  unfold loadPackageJSON stripDev
  rw [List.find?_map]
  cases hf : fs.entries.find? (fun e => e.path == p) with
  | none => simp [Function.comp_def, hf]
  | some e => simp [Function.comp_def, hf]

theorem findModuleLoop_stripDev (fs : FileSystem) (moduleName : String) :
    ∀ (fuel : Nat) (testPath : FsPath) (lastRelative : Option FsPath),
      findModuleLoop (stripDev fs) moduleName fuel testPath lastRelative =
        findModuleLoop fs moduleName fuel testPath lastRelative := by
  intro fuel
  induction fuel with
  | zero => intro tp last; rfl
  | succ fuel ih => intro tp last; simp only [findModuleLoop, pathExists_stripDev, ih]

theorem findModule_stripDev (fs : FileSystem) (moduleName : String) (modulePath : FsPath) :
    findModule (stripDev fs) moduleName modulePath = findModule fs moduleName modulePath := by
  unfold findModule
  rw [findModuleLoop_stripDev]

theorem loadDependencyList_stripDev {fs : FileSystem}
    {step₁ step₂ : FsPath → Bool → List FsPath → WalkResult}
    (hstep : ∀ d am s, step₁ d am s = step₂ d am s) :
    ∀ (lst : List (String × String)) (modulePath : FsPath) (am : Bool) (s : List FsPath),
      loadDependencyList step₁ (stripDev fs) lst modulePath am s =
        loadDependencyList step₂ fs lst modulePath am s := by
  intro lst
  induction lst with
  | nil => intro p am s; rfl
  | cons head rest ih =>
    obtain ⟨nm, vr⟩ := head
    intro p am s
    have hmim : loadProductionDependenciesForModuleInModule step₁ (stripDev fs) nm p am s =
        loadProductionDependenciesForModuleInModule step₂ fs nm p am s := by
      unfold loadProductionDependenciesForModuleInModule
      rw [findModule_stripDev]
      cases findModule fs nm p with
      | none => rfl
      | some d => exact hstep d am s
    simp only [loadDependencyList, hmim]
    cases loadProductionDependenciesForModuleInModule step₂ fs nm p am s with
    | none => rfl
    | some v =>
      cases v with
      | error e => rfl
      | ok s₁ => exact ih p am s₁

theorem loadPDFM_stripDev (fs : FileSystem) :
    ∀ (fuel : Nat) (modulePath : FsPath) (am : Bool) (s : List FsPath),
      loadProductionDependenciesForModule (stripDev fs) fuel modulePath am s =
        loadProductionDependenciesForModule fs fuel modulePath am s := by
  intro fuel
  induction fuel with
  | zero => intro p am s; rfl
  | succ fuel ih =>
    intro p am s
    rw [loadPDFM_succ, loadPDFM_succ]
    by_cases hp : p ∈ s
    · simp [hp]
    · simp only [hp, if_false, loadPackageJSON_stripDev]
      cases hpj : loadPackageJSON fs p with
      | none => rfl
      | some pJ =>
        simp only [Option.map_some]
        show (match loadDependencyList (loadProductionDependenciesForModule (stripDev fs) fuel)
            (stripDev fs) (stripDevPkg pJ).dependencies p am (p :: s) with
          | some (Except.ok s₂) =>
            loadDependencyList (loadProductionDependenciesForModule (stripDev fs) fuel)
              (stripDev fs) (stripDevPkg pJ).optionalDependencies p true s₂
          | r => r) = _
        rw [show (stripDevPkg pJ).dependencies = pJ.dependencies from rfl,
          show (stripDevPkg pJ).optionalDependencies = pJ.optionalDependencies from rfl]
        simp only [loadDependencyList_stripDev (fun d am' s' => ih d am' s')]

theorem loadProductionDependencies_stripDev (fs : FileSystem) (rootModule : FsPath) :
    loadProductionDependencies (stripDev fs) rootModule =
      loadProductionDependencies fs rootModule := by
  unfold loadProductionDependencies
  have hlen : walkFuel (stripDev fs) = walkFuel fs := by
    simp [walkFuel, stripDev]
  rw [hlen, loadPDFM_stripDev]

/-- C3: every member of a successfully built production set is reachable
from the root along edges formed only of `dependencies` and
`optionalDependencies` keys, and the build never reads `devDependencies`:
emptying every `devDependencies` map leaves the whole run unchanged. -/
theorem claim_C3 (fs : FileSystem) (rootModule : FsPath) (r : List FsPath)
    (h : loadProductionDependencies fs rootModule = some (Except.ok r)) :
    (∀ m ∈ r, Relation.ReflTransGen (DepEdge fs) rootModule m) ∧
    loadProductionDependencies (stripDev fs) rootModule =
      loadProductionDependencies fs rootModule := by
  refine ⟨?_, loadProductionDependencies_stripDev fs rootModule⟩
  exact loadPDFM_reach fs _ (fun a b hab ha => ha.tail hab) (walkFuel fs) rootModule false [] r h
    Relation.ReflTransGen.refl (by simp)

/-- Witness for C3 at the example filesystem: both members of the computed
set are reachable from the root, and stripping `devDependencies` changes
nothing. -/
theorem claim_C3_witness :
    (∀ m ∈ [["app", "node_modules", "a"], ["app"]],
      Relation.ReflTransGen (DepEdge exFs) ["app"] m) ∧
    loadProductionDependencies (stripDev exFs) ["app"] =
      loadProductionDependencies exFs ["app"] :=
  claim_C3 exFs ["app"] _ (by decide)

/-! ### Claim C6 — `allowMissing` is threaded through whole branches -/

theorem loadDependencyList_true_no_error {step : FsPath → Bool → List FsPath → WalkResult}
    {fs : FileSystem}
    (Hstep : ∀ d t e, step d true t ≠ some (Except.error e)) :
    ∀ (lst : List (String × String)) (modulePath : FsPath) (s : List FsPath)
      (e : ResolutionError),
      loadDependencyList step fs lst modulePath true s ≠ some (Except.error e) := by
  intro lst
  induction lst with
  | nil => intro p s e; simp [loadDependencyList]
  | cons head rest ih =>
    obtain ⟨nm, vr⟩ := head
    intro p s e
    cases hf : findModule fs nm p with
    | none =>
      simp only [loadDependencyList, loadProductionDependenciesForModuleInModule, hf, if_true]
      exact ih p s e
    | some d =>
      cases hs : step d true s with
      | none => simp [loadDependencyList, loadProductionDependenciesForModuleInModule, hf, hs]
      | some v =>
        cases v with
        | error e' => exact absurd hs (Hstep d s e')
        | ok s₁ =>
          simp only [loadDependencyList, loadProductionDependenciesForModuleInModule, hf, hs]
          exact ih p s₁ e

theorem loadPDFM_true_no_error (fs : FileSystem) :
    ∀ (fuel : Nat) (modulePath : FsPath) (s : List FsPath) (e : ResolutionError),
      loadProductionDependenciesForModule fs fuel modulePath true s ≠
        some (Except.error e) := by
  intro fuel
  induction fuel with
  | zero => intro p s e; simp [loadProductionDependenciesForModule]
  | succ fuel ih =>
    intro p s e
    rw [loadPDFM_succ]
    split
    · simp
    · split
      · simp
      · rename_i pJ hpj
        split
        · rename_i s₂ hd
          exact loadDependencyList_true_no_error ih pJ.optionalDependencies p s₂ e
        · intro hx
          exact loadDependencyList_true_no_error ih pJ.dependencies p (p :: s) e hx

/-- C6: once a branch is entered with `allowMissing = true` — as every
branch reached through an `optionalDependencies` edge is — no resolution
failure anywhere beneath it raises an error: the walk of such a module, and
the walk of any dependency list of such a module (its own required
`dependencies` included), never returns a resolution error, at any depth
and for any accumulator. -/
theorem claim_C6 (fs : FileSystem) :
    (∀ (fuel : Nat) (modulePath : FsPath) (s : List FsPath) (e : ResolutionError),
      loadProductionDependenciesForModule fs fuel modulePath true s ≠
        some (Except.error e)) ∧
    (∀ (fuel : Nat) (lst : List (String × String)) (modulePath : FsPath)
        (s : List FsPath) (e : ResolutionError),
      loadDependencyList (loadProductionDependenciesForModule fs fuel) fs lst modulePath true s ≠
        some (Except.error e)) :=
  ⟨loadPDFM_true_no_error fs,
   fun fuel => loadDependencyList_true_no_error (loadPDFM_true_no_error fs fuel)⟩

/-- Witness for C6: walking the optional dependency `o` — whose required
dependency `x` is missing — with the tolerate-missing flag raises no error. -/
theorem claim_C6_witness :
    loadProductionDependenciesForModule exPropFs 5 ["r", "node_modules", "o"] true [["r"]] ≠
      some (Except.error ⟨"x", ["r", "node_modules", "o"]⟩) :=
  (claim_C6 exPropFs).1 5 ["r", "node_modules", "o"] [["r"]] ⟨"x", ["r", "node_modules", "o"]⟩

/-! ### Basic lemmas about the pruner's filesystem operations -/

theorem mem_removePath {g : FileSystem} {p : FsPath} {e : DirEntry} :
    e ∈ (removePath g p).entries ↔ e ∈ g.entries ∧ ¬ p <+: e.path := by
  simp only [removePath, List.mem_filter, Bool.not_eq_true']
  constructor
  · rintro ⟨h1, h2⟩
    refine ⟨h1, fun hp => ?_⟩
    rw [isPrefixOf_iff.mpr hp] at h2
    cases h2
  · rintro ⟨h1, h2⟩
    refine ⟨h1, ?_⟩
    rcases hb : p.isPrefixOf e.path with _ | _
    · rfl
    · exact absurd (isPrefixOf_iff.mp hb) h2

theorem removePath_sublist (g : FileSystem) (p : FsPath) :
    (removePath g p).entries.Sublist g.entries :=
  List.filter_sublist _

theorem mem_readdir_of {g : FileSystem} {nmP : FsPath} {n : String}
    (h : pathExists g (nmP ++ [n]) = true) : n ∈ readdir g nmP := by
  obtain ⟨e, he, hep⟩ := pathExists_iff.mp h
  unfold readdir
  rw [List.mem_dedup]
  refine List.mem_filterMap.mpr ⟨e.path, List.mem_map_of_mem _ he, ?_⟩
  rw [hep]
  rw [if_pos ⟨isPrefixOf_iff.mpr (List.prefix_append nmP [n]), by simp⟩]
  simp

theorem exists_of_mem_readdir {g : FileSystem} {nmP : FsPath} {n : String}
    (h : n ∈ readdir g nmP) : pathExists g (nmP ++ [n]) = true := by
  unfold readdir at h
  rw [List.mem_dedup] at h
  obtain ⟨q, hq, hcond⟩ := List.mem_filterMap.mp h
  obtain ⟨e, he, hep⟩ := List.mem_map.mp hq
  by_cases hc : (nmP.isPrefixOf q = true) ∧ q.length = nmP.length + 1
  · rw [if_pos hc] at hcond
    obtain ⟨u, hu⟩ := isPrefixOf_iff.mp hc.1
    have hul : u.length = 1 := by
      have := hc.2
      rw [← hu] at this
      simp at this
      omega
    obtain ⟨x, rfl⟩ : ∃ x, u = [x] := by
      cases u with
      | nil => simp at hul
      | cons x t =>
        cases t with
        | nil => exact ⟨x, rfl⟩
        | cons y t2 => simp at hul
    have hx : q.getLast? = some x := by rw [← hu]; simp
    rw [hx] at hcond
    obtain rfl : x = n := by simpa using hcond
    rw [pathExists_iff]
    exact ⟨e, he, by rw [hep, ← hu]⟩
  · rw [if_neg hc] at hcond
    cases hcond

theorem readdir_nodup (g : FileSystem) (nmP : FsPath) : (readdir g nmP).Nodup :=
  List.nodup_dedup _

theorem mem_ancestorChain_of_le {q : FsPath} :
    ∀ {p : FsPath}, q <+: p → q ∈ ancestorChain p := by
  have main : ∀ (k : Nat) (p : FsPath), p.length ≤ k → q <+: p → q ∈ ancestorChain p := by
    intro k
    induction k with
    | zero =>
      intro p hlen hq
      obtain rfl : p = [] := List.length_eq_zero.mp (Nat.le_zero.mp hlen)
      obtain rfl : q = [] := List.prefix_nil.mp hq
      exact self_mem_ancestorChain []
    | succ k ih =>
      intro p hlen hq
      by_cases hqp : q = p
      · subst hqp; exact self_mem_ancestorChain q
      · have hne : p ≠ [] := by
          rintro rfl
          exact hqp (List.prefix_nil.mp hq)
        have hql : q.length < p.length := by
          rcases Nat.lt_or_ge q.length p.length with h | h
          · exact h
          · exact absurd (List.IsPrefix.eq_of_length hq
              (le_antisymm hq.length_le h)) hqp
        have hqd : q <+: dirname p := by
          rw [dirname, List.dropLast_eq_take]
          rw [List.prefix_take_iff]
          exact ⟨hq, by omega⟩
        have hdl : (dirname p).length ≤ k := by
          simp only [dirname, List.length_dropLast]
          omega
        rw [ancestorChain_cons hne]
        exact List.mem_cons_of_mem _ (ih (dirname p) hdl hqd)
  exact fun {p} => main p.length p (le_refl _)

theorem prefixClosedUnder_mem {root : FsPath} {g : FileSystem}
    (hpc : PrefixClosedUnder root g) {e : DirEntry}
    (he : e ∈ g.entries) {q : FsPath} (hq : q <+: e.path) (hr : root <+: q) :
    pathExists g q = true :=
  hpc e he q (mem_ancestorChain_of_le hq) hr

/-! ### What the pruner's recursion can and cannot touch -/

theorem pruneScoped_sublist {step : FsPath → FileSystem → Option FileSystem}
    (Hsub : ∀ c h h', step c h = some h' → h'.entries.Sublist h.entries) :
    ∀ (lst : List String) (scopePath : FsPath) (g g' : FileSystem),
      pruneScoped step lst scopePath g = some g' → g'.entries.Sublist g.entries := by
  intro lst
  induction lst with
  | nil =>
    intro sp g g' h
    obtain rfl : g = g' := by simpa [pruneScoped] using h
    exact List.Sublist.refl _
  | cons name rest ih =>
    intro sp g g' h
    simp only [pruneScoped] at h
    split at h
    · rename_i g₁ hstep
      exact (ih sp g₁ g' h).trans (Hsub _ _ _ hstep)
    · cases h

theorem handleEntry_sublist {step : FsPath → FileSystem → Option FileSystem}
    (Hsub : ∀ c h h', step c h = some h' → h'.entries.Sublist h.entries)
    {name : String} {nmP : FsPath} {g g' : FileSystem}
    (h : handleEntry step name nmP g = some g') : g'.entries.Sublist g.entries := by
  unfold handleEntry at h
  split at h
  · exact pruneScoped_sublist Hsub _ _ _ _ h
  · exact Hsub _ _ _ h

theorem pruneEntries_sublist {step : FsPath → FileSystem → Option FileSystem}
    (Hsub : ∀ c h h', step c h = some h' → h'.entries.Sublist h.entries) :
    ∀ (lst : List String) (nmP : FsPath) (g g' : FileSystem),
      pruneEntries step lst nmP g = some g' → g'.entries.Sublist g.entries := by
  intro lst
  induction lst with
  | nil =>
    intro nmP g g' h
    obtain rfl : g = g' := by simpa [pruneEntries] using h
    exact List.Sublist.refl _
  | cons name rest ih =>
    intro nmP g g' h
    simp only [pruneEntries] at h
    split at h
    · rename_i g₁ hstep
      exact (ih nmP g₁ g' h).trans (handleEntry_sublist Hsub hstep)
    · cases h

theorem pruneModule_sublist (prodPaths : List FsPath) :
    ∀ (fuel : Nat) (modulePath : FsPath) (g g' : FileSystem),
      pruneModule prodPaths fuel modulePath g = some g' →
      g'.entries.Sublist g.entries := by
  intro fuel
  induction fuel with
  | zero => intro p g g' h; cases h
  | succ fuel ih =>
    intro p g g' h
    simp only [pruneModule] at h
    split at h
    · split at h
      · exact pruneEntries_sublist ih _ _ _ _ h
      · obtain rfl : g = g' := by simpa using h
        exact List.Sublist.refl _
    · obtain rfl : removePath g p = g' := by simpa using h
      exact removePath_sublist g p

theorem pruneScoped_frame {step : FsPath → FileSystem → Option FileSystem}
    (Hframe : ∀ c h h', step c h = some h' → ∀ e ∈ h.entries, ¬ c <+: e.path → e ∈ h'.entries) :
    ∀ (lst : List String) (scopePath : FsPath) (g g' : FileSystem),
      pruneScoped step lst scopePath g = some g' →
      ∀ e ∈ g.entries, ¬ scopePath <+: e.path → e ∈ g'.entries := by
  intro lst
  induction lst with
  | nil =>
    intro sp g g' h e he _
    obtain rfl : g = g' := by simpa [pruneScoped] using h
    exact he
  | cons name rest ih =>
    intro sp g g' h e he hne
    simp only [pruneScoped] at h
    split at h
    · rename_i g₁ hstep
      have he₁ : e ∈ g₁.entries :=
        Hframe _ _ _ hstep e he (fun hp => hne ((List.prefix_append sp [name]).trans hp))
      exact ih sp g₁ g' h e he₁ hne
    · cases h

theorem handleEntry_frame {step : FsPath → FileSystem → Option FileSystem}
    (Hframe : ∀ c h h', step c h = some h' → ∀ e ∈ h.entries, ¬ c <+: e.path → e ∈ h'.entries)
    {name : String} {nmP : FsPath} {g g' : FileSystem}
    (h : handleEntry step name nmP g = some g') :
    ∀ e ∈ g.entries, ¬ (nmP ++ [name]) <+: e.path → e ∈ g'.entries := by
  unfold handleEntry at h
  split at h
  · exact pruneScoped_frame Hframe _ _ _ _ h
  · exact Hframe _ _ _ h

theorem pruneEntries_frame {step : FsPath → FileSystem → Option FileSystem}
    (Hframe : ∀ c h h', step c h = some h' → ∀ e ∈ h.entries, ¬ c <+: e.path → e ∈ h'.entries) :
    ∀ (lst : List String) (nmP : FsPath) (g g' : FileSystem),
      pruneEntries step lst nmP g = some g' →
      ∀ e ∈ g.entries, ¬ nmP <+: e.path → e ∈ g'.entries := by
  intro lst
  induction lst with
  | nil =>
    intro nmP g g' h e he _
    obtain rfl : g = g' := by simpa [pruneEntries] using h
    exact he
  | cons name rest ih =>
    intro nmP g g' h e he hne
    simp only [pruneEntries] at h
    split at h
    · rename_i g₁ hstep
      have he₁ : e ∈ g₁.entries :=
        handleEntry_frame Hframe hstep e he
          (fun hp => hne ((List.prefix_append nmP [name]).trans hp))
      exact ih nmP g₁ g' h e he₁ hne
    · cases h

theorem pruneModule_frame (prodPaths : List FsPath) :
    ∀ (fuel : Nat) (modulePath : FsPath) (g g' : FileSystem),
      pruneModule prodPaths fuel modulePath g = some g' →
      ∀ e ∈ g.entries, ¬ modulePath <+: e.path → e ∈ g'.entries := by
  intro fuel
  induction fuel with
  | zero => intro p g g' h; cases h
  | succ fuel ih =>
    intro p g g' h e he hne
    simp only [pruneModule] at h
    split at h
    · split at h
      · exact pruneEntries_frame ih _ _ _ _ h e he
          (fun hp => hne ((List.prefix_append p ["node_modules"]).trans hp))
      · obtain rfl : g = g' := by simpa using h
        exact he
    · obtain rfl : removePath g p = g' := by simpa using h
      exact mem_removePath.mpr ⟨he, hne⟩

theorem pruneScoped_preserve_other {step : FsPath → FileSystem → Option FileSystem}
    (Hframe : ∀ c h h', step c h = some h' → ∀ e ∈ h.entries, ¬ c <+: e.path → e ∈ h'.entries)
    {m : String} :
    ∀ (lst : List String) (scopePath : FsPath) (g g' : FileSystem),
      pruneScoped step lst scopePath g = some g' → m ∉ lst →
      ∀ e ∈ g.entries, (scopePath ++ [m]) <+: e.path → e ∈ g'.entries := by
  intro lst
  induction lst with
  | nil =>
    intro sp g g' h _ e he _
    obtain rfl : g = g' := by simpa [pruneScoped] using h
    exact he
  | cons name rest ih =>
    intro sp g g' h hm e he hbr
    simp only [pruneScoped] at h
    split at h
    · rename_i g₁ hstep
      have hne : name ≠ m := fun hx => hm (hx ▸ List.mem_cons_self _ _)
      have he₁ : e ∈ g₁.entries :=
        Hframe _ _ _ hstep e he (fun hp => hne (prefix_snoc_inj hp hbr))
      exact ih sp g₁ g' h (fun hx => hm (List.mem_cons_of_mem _ hx)) e he₁ hbr
    · cases h

theorem pruneEntries_preserve_other {step : FsPath → FileSystem → Option FileSystem}
    (Hframe : ∀ c h h', step c h = some h' → ∀ e ∈ h.entries, ¬ c <+: e.path → e ∈ h'.entries)
    {n : String} :
    ∀ (lst : List String) (nmP : FsPath) (g g' : FileSystem),
      pruneEntries step lst nmP g = some g' → n ∉ lst →
      ∀ e ∈ g.entries, (nmP ++ [n]) <+: e.path → e ∈ g'.entries := by
  intro lst
  induction lst with
  | nil =>
    intro nmP g g' h _ e he _
    obtain rfl : g = g' := by simpa [pruneEntries] using h
    exact he
  | cons name rest ih =>
    intro nmP g g' h hn e he hbr
    simp only [pruneEntries] at h
    split at h
    · rename_i g₁ hstep
      have hne : name ≠ n := fun hx => hn (hx ▸ List.mem_cons_self _ _)
      have he₁ : e ∈ g₁.entries :=
        handleEntry_frame Hframe hstep e he (fun hp => hne (prefix_snoc_inj hp hbr))
      exact ih nmP g₁ g' h (fun hx => hn (List.mem_cons_of_mem _ hx)) e he₁ hbr
    · cases h

theorem pruneScoped_visit {step : FsPath → FileSystem → Option FileSystem}
    (Hsub : ∀ c h h', step c h = some h' → h'.entries.Sublist h.entries)
    (Hframe : ∀ c h h', step c h = some h' → ∀ e ∈ h.entries, ¬ c <+: e.path → e ∈ h'.entries)
    {m : String} :
    ∀ (lst : List String) (scopePath : FsPath) (g g' : FileSystem),
      pruneScoped step lst scopePath g = some g' → m ∈ lst → lst.Nodup →
      ∃ h h', step (scopePath ++ [m]) h = some h' ∧
        h.entries.Sublist g.entries ∧
        (∀ e ∈ g.entries, (scopePath ++ [m]) <+: e.path → e ∈ h.entries) ∧
        g'.entries.Sublist h'.entries ∧
        (∀ e ∈ h'.entries, (scopePath ++ [m]) <+: e.path → e ∈ g'.entries) := by
  intro lst
  induction lst with
  | nil => intro sp g g' _ hm; cases hm
  | cons name rest ih =>
    intro sp g g' h hm hnd
    simp only [pruneScoped] at h
    split at h
    · rename_i g₁ hstep
      rcases List.mem_cons.mp hm with rfl | hmr
      · refine ⟨g, g₁, hstep, List.Sublist.refl _, fun e he _ => he,
          pruneScoped_sublist Hsub rest sp g₁ g' h, ?_⟩
        have hnm : m ∉ rest := (List.nodup_cons.mp hnd).1
        exact pruneScoped_preserve_other Hframe rest sp g₁ g' h hnm
      · have hne : name ≠ m := by
          rintro rfl
          exact (List.nodup_cons.mp hnd).1 hmr
        obtain ⟨h₁, h₁', hs, hsub, hpre, hsub', hpost⟩ :=
          ih sp g₁ g' h hmr (List.nodup_cons.mp hnd).2
        refine ⟨h₁, h₁', hs, hsub.trans (Hsub _ _ _ hstep), ?_, hsub', hpost⟩
        intro e he hbr
        exact hpre e (Hframe _ _ _ hstep e he (fun hp => hne (prefix_snoc_inj hp hbr))) hbr
    · cases h

theorem pruneEntries_visit {step : FsPath → FileSystem → Option FileSystem}
    (Hsub : ∀ c h h', step c h = some h' → h'.entries.Sublist h.entries)
    (Hframe : ∀ c h h', step c h = some h' → ∀ e ∈ h.entries, ¬ c <+: e.path → e ∈ h'.entries)
    {n : String} :
    ∀ (lst : List String) (nmP : FsPath) (g g' : FileSystem),
      pruneEntries step lst nmP g = some g' → n ∈ lst → lst.Nodup →
      ∃ h h', handleEntry step n nmP h = some h' ∧
        h.entries.Sublist g.entries ∧
        (∀ e ∈ g.entries, (nmP ++ [n]) <+: e.path → e ∈ h.entries) ∧
        g'.entries.Sublist h'.entries ∧
        (∀ e ∈ h'.entries, (nmP ++ [n]) <+: e.path → e ∈ g'.entries) := by
  intro lst
  induction lst with
  | nil => intro nmP g g' _ hn; cases hn
  | cons name rest ih =>
    intro nmP g g' h hn hnd
    simp only [pruneEntries] at h
    split at h
    · rename_i g₁ hstep
      rcases List.mem_cons.mp hn with rfl | hnr
      · refine ⟨g, g₁, hstep, List.Sublist.refl _, fun e he _ => he,
          pruneEntries_sublist Hsub rest nmP g₁ g' h, ?_⟩
        have hnm : n ∉ rest := (List.nodup_cons.mp hnd).1
        exact pruneEntries_preserve_other Hframe rest nmP g₁ g' h hnm
      · have hne : name ≠ n := by
          rintro rfl
          exact (List.nodup_cons.mp hnd).1 hnr
        obtain ⟨h₁, h₁', hs, hsub, hpre, hsub', hpost⟩ :=
          ih nmP g₁ g' h hnr (List.nodup_cons.mp hnd).2
        refine ⟨h₁, h₁', hs, hsub.trans (handleEntry_sublist Hsub hstep), ?_, hsub', hpost⟩
        intro e he hbr
        exact hpre e (handleEntry_frame Hframe hstep e he
          (fun hp => hne (prefix_snoc_inj hp hbr))) hbr
    · cases h

theorem moduleStep_extends {a b : FsPath} (h : ModuleStep a b) :
    a <+: b ∧ a.length < b.length := by
  cases h with
  | plain name hn => exact ⟨List.prefix_append _ _, by simp⟩
  | withScope sc name hs => exact ⟨List.prefix_append _ _, by simp⟩

theorem moduleStep_nm {a b : FsPath} (h : ModuleStep a b) :
    (a ++ ["node_modules"]) <+: b := by
  cases h with
  | plain name hn =>
    exact ⟨[name], by simp⟩
  | withScope sc name hs =>
    exact ⟨[sc, name], by simp⟩

theorem goodChain_extends {prodPaths : List FsPath} {a b : FsPath}
    (h : GoodChain prodPaths a b) : a <+: b := by
  induction h with
  | refl => exact List.prefix_refl _
  | tail hab hstep ih => exact ih.trans (moduleStep_extends hstep.2).1

theorem goodChain_mono {prodPaths prodPaths' : List FsPath} {a b : FsPath}
    (hsub : ∀ x ∈ prodPaths, x ∈ prodPaths') (h : GoodChain prodPaths a b) :
    GoodChain prodPaths' a b :=
  Relation.ReflTransGen.mono (fun _ _ hxy => ⟨hsub _ hxy.1, hxy.2⟩) h

theorem not_nm_self (m : FsPath) : ¬ (m ++ ["node_modules"]) <+: m := by
  intro hp
  have := hp.length_le
  simp at this

/-! ### The pruner deletes exactly the non-production subtrees it reaches -/

theorem pruneModule_removes (prodPaths : List FsPath) {c t : FsPath}
    (hstep : ModuleStep c t) (ht : t ∉ prodPaths) :
    ∀ (p : FsPath), GoodChain prodPaths p c →
      ∀ (fuel : Nat) (g g' : FileSystem),
        pruneModule prodPaths fuel p g = some g' →
        (∀ u, u <+: t → p <+: u → pathExists g u = true) →
        ∀ e ∈ g'.entries, ¬ t <+: e.path := by
  intro p hchain
  induction hchain using Relation.ReflTransGen.head_induction_on with
  | refl =>
    intro fuel g g' hrun hinv e he hpre
    cases fuel with
    | zero => cases hrun
    | succ f =>
      by_cases hc : c ∈ prodPaths
      · have hnm : pathExists g (c ++ ["node_modules"]) = true :=
          hinv _ (moduleStep_nm hstep) (List.prefix_append _ _)
        simp only [pruneModule, if_pos hc] at hrun
        rw [if_pos hnm] at hrun
        cases hstep with
        | plain name hn =>
          have hassoc : c ++ ["node_modules", name] = (c ++ ["node_modules"]) ++ [name] := by
            simp
          have htex : pathExists g ((c ++ ["node_modules"]) ++ [name]) = true := by
            rw [← hassoc]
            exact hinv _ (List.prefix_refl _)
              (moduleStep_extends (ModuleStep.plain c name hn)).1
          obtain ⟨h, h', hhandle, hsubgh, hpreb, hsub', hpost⟩ :=
            pruneEntries_visit (pruneModule_sublist prodPaths f) (pruneModule_frame prodPaths f)
              _ _ _ _ hrun (mem_readdir_of htex) (readdir_nodup _ _)
          unfold handleEntry at hhandle
          rw [if_neg (by simp [hn])] at hhandle
          rw [← hassoc] at hhandle
          cases f with
          | zero => cases hhandle
          | succ f2 =>
            simp only [pruneModule, if_neg ht] at hhandle
            obtain rfl : removePath h (c ++ ["node_modules", name]) = h' := by
              simpa using hhandle
            exact (mem_removePath.mp (hsub'.subset he)).2 hpre
        | withScope sc name hs =>
          have hassoc1 : c ++ ["node_modules", sc, name] =
              ((c ++ ["node_modules"]) ++ [sc]) ++ [name] := by simp
          have hscex : pathExists g ((c ++ ["node_modules"]) ++ [sc]) = true := by
            refine hinv _ ⟨[name], by simp⟩ ⟨["node_modules", sc], by simp⟩
          obtain ⟨h, h', hhandle, hsubgh, hpreb, hsub', hpost⟩ :=
            pruneEntries_visit (pruneModule_sublist prodPaths f) (pruneModule_frame prodPaths f)
              _ _ _ _ hrun (mem_readdir_of hscex) (readdir_nodup _ _)
          unfold handleEntry at hhandle
          rw [if_pos hs] at hhandle
          have htg : pathExists g (c ++ ["node_modules", sc, name]) = true :=
            hinv _ (List.prefix_refl _)
              (moduleStep_extends (ModuleStep.withScope c sc name hs)).1
          obtain ⟨et, hetg, hetp⟩ := pathExists_iff.mp htg
          have heth : et ∈ h.entries :=
            hpreb et hetg (by rw [hetp]; exact ⟨[name], by simp⟩)
          have hnmem : name ∈ readdir h ((c ++ ["node_modules"]) ++ [sc]) :=
            mem_readdir_of (pathExists_iff.mpr ⟨et, heth, by rw [hetp, hassoc1]⟩)
          obtain ⟨h₂, h₂', hstep₂, hsub₂, hpre₂, hsub₂', hpost₂⟩ :=
            pruneScoped_visit (pruneModule_sublist prodPaths f) (pruneModule_frame prodPaths f)
              _ _ _ _ hhandle hnmem (readdir_nodup _ _)
          rw [← hassoc1] at hstep₂
          cases f with
          | zero => cases hstep₂
          | succ f2 =>
            simp only [pruneModule, if_neg ht] at hstep₂
            obtain rfl : removePath h₂ (c ++ ["node_modules", sc, name]) = h₂' := by
              simpa using hstep₂
            exact (mem_removePath.mp (hsub₂'.subset (hsub'.subset he))).2 hpre
      · simp only [pruneModule, if_neg hc] at hrun
        obtain rfl : removePath g c = g' := by simpa using hrun
        exact (mem_removePath.mp he).2 ((moduleStep_extends hstep).1.trans hpre)
  | @head p' b' hrel hcb ih =>
    intro fuel g g' hrun hinv e he hpre
    cases fuel with
    | zero => cases hrun
    | succ f =>
      obtain ⟨hpmem, hstepPB⟩ := hrel
      have hbt : b' <+: t := (goodChain_extends hcb).trans (moduleStep_extends hstep).1
      have hnm : pathExists g (p' ++ ["node_modules"]) = true :=
        hinv _ ((moduleStep_nm hstepPB).trans hbt) (List.prefix_append _ _)
      simp only [pruneModule, if_pos hpmem] at hrun
      rw [if_pos hnm] at hrun
      cases hstepPB with
      | plain name hn =>
        have hassoc : p' ++ ["node_modules", name] = (p' ++ ["node_modules"]) ++ [name] := by
          simp
        have hbex : pathExists g ((p' ++ ["node_modules"]) ++ [name]) = true := by
          rw [← hassoc]
          exact hinv _ hbt ⟨["node_modules", name], rfl⟩
        obtain ⟨h, h', hhandle, hsubgh, hpreb, hsub', hpost⟩ :=
          pruneEntries_visit (pruneModule_sublist prodPaths f) (pruneModule_frame prodPaths f)
            _ _ _ _ hrun (mem_readdir_of hbex) (readdir_nodup _ _)
        unfold handleEntry at hhandle
        rw [if_neg (by simp [hn])] at hhandle
        rw [← hassoc] at hhandle
        refine ih f h h' hhandle ?_ e (hsub'.subset he) hpre
        intro u hut hbu
        obtain ⟨eu, heu, heup⟩ := pathExists_iff.mp
          (hinv u hut ((moduleStep_extends (ModuleStep.plain p' name hn)).1.trans hbu))
        refine pathExists_iff.mpr ⟨eu, ?_, heup⟩
        exact hpreb eu heu (by rw [heup, ← hassoc]; exact hbu)
      | withScope sc name hs =>
        have hassoc1 : p' ++ ["node_modules", sc, name] =
            ((p' ++ ["node_modules"]) ++ [sc]) ++ [name] := by simp
        have hscb : ((p' ++ ["node_modules"]) ++ [sc]) <+: p' ++ ["node_modules", sc, name] :=
          ⟨[name], by simp⟩
        have hscex : pathExists g ((p' ++ ["node_modules"]) ++ [sc]) = true :=
          hinv _ (hscb.trans hbt) ⟨["node_modules", sc], by simp⟩
        obtain ⟨h, h', hhandle, hsubgh, hpreb, hsub', hpost⟩ :=
          pruneEntries_visit (pruneModule_sublist prodPaths f) (pruneModule_frame prodPaths f)
            _ _ _ _ hrun (mem_readdir_of hscex) (readdir_nodup _ _)
        unfold handleEntry at hhandle
        rw [if_pos hs] at hhandle
        have hbexg : pathExists g (p' ++ ["node_modules", sc, name]) = true :=
          hinv _ hbt ⟨["node_modules", sc, name], rfl⟩
        obtain ⟨eb, hebg, hebp⟩ := pathExists_iff.mp hbexg
        have hebh : eb ∈ h.entries := hpreb eb hebg (by rw [hebp]; exact hscb)
        have hnmem : name ∈ readdir h ((p' ++ ["node_modules"]) ++ [sc]) :=
          mem_readdir_of (pathExists_iff.mpr ⟨eb, hebh, by rw [hebp, hassoc1]⟩)
        obtain ⟨h₂, h₂', hstep₂, hsub₂, hpre₂, hsub₂', hpost₂⟩ :=
          pruneScoped_visit (pruneModule_sublist prodPaths f) (pruneModule_frame prodPaths f)
            _ _ _ _ hhandle hnmem (readdir_nodup _ _)
        rw [← hassoc1] at hstep₂
        refine ih f h₂ h₂' hstep₂ ?_ e (hsub₂'.subset (hsub'.subset he)) hpre
        intro u hut hbu
        obtain ⟨eu, heu, heup⟩ := pathExists_iff.mp
          (hinv u hut ((moduleStep_extends (ModuleStep.withScope p' sc name hs)).1.trans hbu))
        have heuh : eu ∈ h.entries :=
          hpreb eu heu (by rw [heup]; exact hscb.trans hbu)
        refine pathExists_iff.mpr ⟨eu, ?_, heup⟩
        exact hpre₂ eu heuh (by rw [heup, ← hassoc1]; exact hbu)

/-! ### The pruner never deletes a member whose whole chain is production -/

theorem pruneModule_keeps (prodPaths : List FsPath) {m : FsPath} (hm : m ∈ prodPaths) :
    ∀ (p : FsPath), GoodChain prodPaths p m →
      ∀ (fuel : Nat) (g g' : FileSystem),
        pruneModule prodPaths fuel p g = some g' →
        (∀ u, u <+: m → p <+: u → pathExists g u = true) →
        pathExists g' m = true := by
  intro p hchain
  induction hchain using Relation.ReflTransGen.head_induction_on with
  | refl =>
    intro fuel g g' hrun hinv
    cases fuel with
    | zero => cases hrun
    | succ f =>
      have hmg : pathExists g m = true := hinv m (List.prefix_refl _) (List.prefix_refl _)
      obtain ⟨em, hemg, hemp⟩ := pathExists_iff.mp hmg
      simp only [pruneModule, if_pos hm] at hrun
      by_cases hnm : pathExists g (m ++ ["node_modules"]) = true
      · rw [if_pos hnm] at hrun
        refine pathExists_iff.mpr ⟨em, ?_, hemp⟩
        refine pruneEntries_frame (pruneModule_frame prodPaths f) _ _ _ _ hrun em hemg ?_
        rw [hemp]
        exact not_nm_self m
      · rw [if_neg hnm] at hrun
        obtain rfl : g = g' := by simpa using hrun
        exact hmg
  | @head p' b' hrel hcb ih =>
    intro fuel g g' hrun hinv
    cases fuel with
    | zero => cases hrun
    | succ f =>
      obtain ⟨hpmem, hstepPB⟩ := hrel
      have hbm : b' <+: m := goodChain_extends hcb
      have hnm : pathExists g (p' ++ ["node_modules"]) = true :=
        hinv _ ((moduleStep_nm hstepPB).trans hbm) (List.prefix_append _ _)
      simp only [pruneModule, if_pos hpmem] at hrun
      rw [if_pos hnm] at hrun
      cases hstepPB with
      | plain name hn =>
        have hassoc : p' ++ ["node_modules", name] = (p' ++ ["node_modules"]) ++ [name] := by
          simp
        have hbex : pathExists g ((p' ++ ["node_modules"]) ++ [name]) = true := by
          rw [← hassoc]
          exact hinv _ hbm ⟨["node_modules", name], rfl⟩
        obtain ⟨h, h', hhandle, hsubgh, hpreb, hsub', hpost⟩ :=
          pruneEntries_visit (pruneModule_sublist prodPaths f) (pruneModule_frame prodPaths f)
            _ _ _ _ hrun (mem_readdir_of hbex) (readdir_nodup _ _)
        unfold handleEntry at hhandle
        rw [if_neg (by simp [hn])] at hhandle
        rw [← hassoc] at hhandle
        have hm' : pathExists h' m = true := by
          refine ih f h h' hhandle ?_
          intro u hum hbu
          obtain ⟨eu, heu, heup⟩ := pathExists_iff.mp
            (hinv u hum ((moduleStep_extends (ModuleStep.plain p' name hn)).1.trans hbu))
          refine pathExists_iff.mpr ⟨eu, ?_, heup⟩
          exact hpreb eu heu (by rw [heup, ← hassoc]; exact hbu)
        obtain ⟨em, hemh, hemp⟩ := pathExists_iff.mp hm'
        refine pathExists_iff.mpr ⟨em, ?_, hemp⟩
        exact hpost em hemh (by rw [hemp, ← hassoc]; exact hbm)
      | withScope sc name hs =>
        have hassoc1 : p' ++ ["node_modules", sc, name] =
            ((p' ++ ["node_modules"]) ++ [sc]) ++ [name] := by simp
        have hscb : ((p' ++ ["node_modules"]) ++ [sc]) <+: p' ++ ["node_modules", sc, name] :=
          ⟨[name], by simp⟩
        have hscex : pathExists g ((p' ++ ["node_modules"]) ++ [sc]) = true :=
          hinv _ (hscb.trans hbm) ⟨["node_modules", sc], by simp⟩
        obtain ⟨h, h', hhandle, hsubgh, hpreb, hsub', hpost⟩ :=
          pruneEntries_visit (pruneModule_sublist prodPaths f) (pruneModule_frame prodPaths f)
            _ _ _ _ hrun (mem_readdir_of hscex) (readdir_nodup _ _)
        unfold handleEntry at hhandle
        rw [if_pos hs] at hhandle
        have hbexg : pathExists g (p' ++ ["node_modules", sc, name]) = true :=
          hinv _ hbm ⟨["node_modules", sc, name], rfl⟩
        obtain ⟨eb, hebg, hebp⟩ := pathExists_iff.mp hbexg
        have hebh : eb ∈ h.entries := hpreb eb hebg (by rw [hebp]; exact hscb)
        have hnmem : name ∈ readdir h ((p' ++ ["node_modules"]) ++ [sc]) :=
          mem_readdir_of (pathExists_iff.mpr ⟨eb, hebh, by rw [hebp, hassoc1]⟩)
        obtain ⟨h₂, h₂', hstep₂, hsub₂, hpre₂, hsub₂', hpost₂⟩ :=
          pruneScoped_visit (pruneModule_sublist prodPaths f) (pruneModule_frame prodPaths f)
            _ _ _ _ hhandle hnmem (readdir_nodup _ _)
        rw [← hassoc1] at hstep₂
        have hm₂ : pathExists h₂' m = true := by
          refine ih f h₂ h₂' hstep₂ ?_
          intro u hum hbu
          obtain ⟨eu, heu, heup⟩ := pathExists_iff.mp
            (hinv u hum ((moduleStep_extends (ModuleStep.withScope p' sc name hs)).1.trans hbu))
          have heuh : eu ∈ h.entries :=
            hpreb eu heu (by rw [heup]; exact hscb.trans hbu)
          refine pathExists_iff.mpr ⟨eu, ?_, heup⟩
          exact hpre₂ eu heuh (by rw [heup, ← hassoc1]; exact hbu)
        obtain ⟨em, hemh, hemp⟩ := pathExists_iff.mp hm₂
        refine pathExists_iff.mpr ⟨em, ?_, hemp⟩
        have hem' : em ∈ h'.entries :=
          hpost₂ em hemh (by rw [hemp, ← hassoc1]; exact hbm)
        exact hpost em hem' (by rw [hemp]; exact hscb.trans hbm)

theorem ascentPos_lift {p t : FsPath} (h : AscentPos (nextTestPath p) t) :
    AscentPos p t := by
  induction h with
  | refl => exact AscentPos.next p p (AscentPos.refl p)
  | next q hq ih => exact AscentPos.next p q ih

theorem nextTestPath_le (p : FsPath) : nextTestPath p <+: p := by
  unfold nextTestPath
  have hd : ∀ l : FsPath, dirname l <+: l := fun l => List.dropLast_prefix l
  split
  · exact ((hd _).trans (hd _)).trans (hd p)
  · exact (hd _).trans (hd p)

theorem findModuleLoop_discovered {fs : FileSystem} {moduleName : String} :
    ∀ (fuel : Nat) (testPath : FsPath) (lastRelative : Option FsPath) (d : FsPath),
      findModuleLoop fs moduleName fuel testPath lastRelative = some (some d) →
      ∃ t, AscentPos testPath t ∧ d = relativeModule t moduleName := by
  intro fuel
  induction fuel with
  | zero => intro tp last d h; cases h
  | succ fuel ih =>
    intro tp last d h
    simp only [findModuleLoop] at h
    split at h
    · simp at h
    · split at h
      · obtain rfl : relativeModule tp moduleName = d := by simpa using h
        exact ⟨tp, AscentPos.refl tp, rfl⟩
      · obtain ⟨t, ht, rfl⟩ := ih _ _ _ h
        exact ⟨t, ascentPos_lift ht, rfl⟩

theorem findModule_discovered {fs : FileSystem} {moduleName : String} {modulePath d : FsPath}
    (h : findModule fs moduleName modulePath = some d) :
    ∃ t, AscentPos modulePath t ∧ d = relativeModule t moduleName := by
  unfold findModule at h
  cases hr : findModuleLoop fs moduleName (findFuel modulePath) modulePath none with
  | none => rw [hr] at h; cases h
  | some r =>
    cases r with
    | none => rw [hr] at h; cases h
    | some d' =>
      rw [hr] at h
      obtain rfl : d' = d := by simpa using h
      exact findModuleLoop_discovered _ _ _ _ hr

theorem moduleStep_relativeModule {t : FsPath} {name : String} (h : ValidName name) :
    ModuleStep t (relativeModule t name) := by
  unfold ValidName at h
  cases hs : splitName name with
  | nil => rw [hs] at h; exact h.elim
  | cons a rest =>
    cases rest with
    | nil =>
      rw [hs] at h
      have hr : relativeModule t name = t ++ ["node_modules", a] := by
        simp [relativeModule, hs]
      rw [hr]
      exact ModuleStep.plain t a h
    | cons b rest2 =>
      cases rest2 with
      | nil =>
        rw [hs] at h
        have hr : relativeModule t name = t ++ ["node_modules", a, b] := by
          simp [relativeModule, hs]
        rw [hr]
        exact ModuleStep.withScope t a b h
      | cons c rest3 => rw [hs] at h; exact h.elim

theorem loadPackageJSON_entry {fs : FileSystem} {p : FsPath} {pJ : PackageJSON}
    (h : loadPackageJSON fs p = some pJ) :
    ∃ e ∈ fs.entries, e.path = p ∧ e.pkg = some pJ := by
  unfold loadPackageJSON at h
  cases hf : fs.entries.find? (fun e => e.path == p) with
  | none => rw [hf] at h; cases h
  | some e =>
    rw [hf] at h
    refine ⟨e, List.mem_of_find?_eq_some hf, ?_, h⟩
    have := List.find?_some hf
    simpa using this

/-! ### Candidates inside the root's tree come from positions inside it -/

theorem candidate_in_tree {root t : FsPath} {name : String}
    (hroot : "node_modules" ∉ root) (htree : root <+: relativeModule t name) :
    root <+: t := by
  by_cases hlen : root.length ≤ t.length
  · have ht : t <+: relativeModule t name := ⟨"node_modules" :: splitName name, rfl⟩
    exact List.prefix_of_prefix_length_le htree ht hlen
  · exfalso
    push_neg at hlen
    apply hroot
    obtain ⟨u, hu⟩ := htree
    have htake : root = (relativeModule t name).take root.length := by
      rw [← hu, List.take_left]
    rw [htake]
    unfold relativeModule
    rw [List.take_append_eq_append_take, List.take_of_length_le (by omega)]
    refine List.mem_append.mpr (Or.inr ?_)
    obtain ⟨k', hk'⟩ : ∃ k', root.length - t.length = k' + 1 :=
      ⟨root.length - t.length - 1, by omega⟩
    rw [hk']
    simp

/-! ### Ascent positions inside the root's tree are production members -/

theorem ascent_chain {root : FsPath} {prodPaths : List FsPath}
    (hrne : root ≠ [])
    (hInv : ∀ m ∈ prodPaths, root <+: m → GoodChain prodPaths root m) :
    ∀ {p t : FsPath}, AscentPos p t → p ∈ prodPaths → root <+: t →
      GoodChain prodPaths root t ∧ t ∈ prodPaths := by
  intro p t hasc
  induction hasc with
  | refl => intro hp hrt; exact ⟨hInv p hp hrt, hp⟩
  | next q hq ih =>
    intro hp hrt
    have hqpre : nextTestPath q <+: q := nextTestPath_le q
    have hrq : root <+: q := hrt.trans hqpre
    obtain ⟨hchain, hqmem⟩ := ih hp hrq
    rcases Relation.ReflTransGen.cases_tail hchain with heq | hex
    · exfalso
      subst heq
      have hlt : (nextTestPath q).length < q.length := nextTestPath_length_lt hrne
      have hge := hrt.length_le
      omega
    · obtain ⟨c, hchainC, hcmem, hstepCQ⟩ := hex
      have hnc : nextTestPath q = c := by
        cases hstepCQ with
        | plain name hn => exact nextTestPath_plain c name
        | withScope sc name hs =>
          exact nextTestPath_scoped c sc name (isScoped_ne_node_modules hs)
      rw [hnc]
      exact ⟨hchainC, hcmem⟩

/-! ### Every member inside the root's tree sits on an all-member chain -/

theorem loadDependencyList_closed {fs : FileSystem} {root : FsPath}
    {step : FsPath → Bool → List FsPath → WalkResult}
    (hrne : root ≠ []) (hroot : "node_modules" ∉ root)
    (HstepS : ∀ d am t r, step d am t = some (Except.ok r) → t <:+ r)
    (Hstep : ∀ d am t r, step d am t = some (Except.ok r) →
      (root <+: d → GoodChain t root d) →
      (∀ m ∈ t, root <+: m → GoodChain t root m) →
      (∀ m ∈ r, root <+: m → GoodChain r root m)) :
    ∀ (lst : List (String × String)) (modulePath : FsPath) (am : Bool) (s r : List FsPath),
      (∀ nv ∈ lst, ValidName nv.1) →
      loadDependencyList step fs lst modulePath am s = some (Except.ok r) →
      modulePath ∈ s →
      (∀ m ∈ s, root <+: m → GoodChain s root m) →
      (∀ m ∈ r, root <+: m → GoodChain r root m) := by
  intro lst
  induction lst with
  | nil =>
    intro p am s r _ h _ hInv
    obtain rfl : s = r := by simpa [loadDependencyList] using h
    exact hInv
  | cons head rest ih =>
    obtain ⟨nm, vr⟩ := head
    intro p am s r hnames h hp hInv
    simp only [loadDependencyList] at h
    split at h
    · rename_i s₁ hv
      have hInv₁ : ∀ m ∈ s₁, root <+: m → GoodChain s₁ root m := by
        unfold loadProductionDependenciesForModuleInModule at hv
        split at hv
        · split at hv
          · obtain rfl : s = s₁ := by simpa using hv
            exact hInv
          · exact absurd hv (by simp)
        · rename_i d hf
          refine Hstep d am s s₁ hv ?_ hInv
          intro htree
          obtain ⟨t, hasc, rfl⟩ := findModule_discovered hf
          have hrt : root <+: t := candidate_in_tree hroot htree
          obtain ⟨hct, htm⟩ := ascent_chain hrne hInv hasc hp hrt
          exact hct.tail ⟨htm,
            moduleStep_relativeModule (hnames (nm, vr) (List.mem_cons_self _ _))⟩
      have hp₁ : p ∈ s₁ := by
        unfold loadProductionDependenciesForModuleInModule at hv
        split at hv
        · split at hv
          · obtain rfl : s = s₁ := by simpa using hv
            exact hp
          · exact absurd hv (by simp)
        · exact (HstepS _ am s s₁ hv).subset hp
      exact ih p am s₁ r (fun nv hnv => hnames nv (List.mem_cons_of_mem _ hnv)) h hp₁ hInv₁
    · rename_i hv
      exact absurd h (fun hh => hv r hh)

theorem loadPDFM_closed (fs : FileSystem) (root : FsPath)
    (hrne : root ≠ []) (hroot : "node_modules" ∉ root) (hwf : WellFormedNames fs) :
    ∀ (fuel : Nat) (modulePath : FsPath) (am : Bool) (s r : List FsPath),
      loadProductionDependenciesForModule fs fuel modulePath am s = some (Except.ok r) →
      (root <+: modulePath → GoodChain s root modulePath) →
      (∀ m ∈ s, root <+: m → GoodChain s root m) →
      (∀ m ∈ r, root <+: m → GoodChain r root m) := by
  intro fuel
  induction fuel with
  | zero => intro p am s r h _ _; exact absurd h (by simp [loadProductionDependenciesForModule])
  | succ fuel ih =>
    intro p am s r h hP hInv
    simp only [loadProductionDependenciesForModule] at h
    split at h
    · obtain rfl : s = r := by simpa using h
      exact hInv
    · have hsub : ∀ x ∈ s, x ∈ p :: s := fun x hx => List.mem_cons_of_mem _ hx
      have hInv' : ∀ m ∈ p :: s, root <+: m → GoodChain (p :: s) root m := by
        intro m hm hrm
        rcases List.mem_cons.mp hm with rfl | hm
        · exact goodChain_mono hsub (hP hrm)
        · exact goodChain_mono hsub (hInv m hm hrm)
      split at h
      · obtain rfl : p :: s = r := by simpa using h
        exact hInv'
      · rename_i pJ hpj
        obtain ⟨e, he, hep, hepkg⟩ := loadPackageJSON_entry hpj
        have hnames := hwf e he
        rw [hepkg] at hnames
        split at h
        · rename_i s₂ hd
          have hInv₂ := loadDependencyList_closed hrne hroot
            (loadPDFM_ok_suffix fs fuel) ih pJ.dependencies p am (p :: s) s₂
            hnames.1 hd (List.mem_cons_self _ _) hInv'
          have hp₂ : p ∈ s₂ :=
            (loadDependencyList_ok_suffix (loadPDFM_ok_suffix fs fuel) _ p am _ _ hd).subset
              (List.mem_cons_self _ _)
          exact loadDependencyList_closed hrne hroot
            (loadPDFM_ok_suffix fs fuel) ih pJ.optionalDependencies p true s₂ r
            hnames.2 h hp₂ hInv₂
        · rename_i hne
          exact absurd h (fun hh => hne r hh)

theorem loadProductionDependencies_closed {fs : FileSystem} {root : FsPath}
    {prodPaths : List FsPath}
    (hrne : root ≠ []) (hroot : "node_modules" ∉ root) (hwf : WellFormedNames fs)
    (h : loadProductionDependencies fs root = some (Except.ok prodPaths)) :
    ∀ m ∈ prodPaths, root <+: m → GoodChain prodPaths root m :=
  loadPDFM_closed fs root hrne hroot hwf (walkFuel fs) root false [] prodPaths h
    (fun _ => Relation.ReflTransGen.refl) (by simp)

theorem moduleChain_extends {a b : FsPath}
    (h : Relation.ReflTransGen ModuleStep a b) : a <+: b := by
  induction h with
  | refl => exact List.prefix_refl _
  | tail hab hstep ih => exact ih.trans (moduleStep_extends hstep).1

theorem chain_split {prodPaths : List FsPath} {q : FsPath} (hq : q ∉ prodPaths) :
    ∀ {root : FsPath}, Relation.ReflTransGen ModuleStep root q → root ∈ prodPaths →
      ∃ c t, GoodChain prodPaths root c ∧ ModuleStep c t ∧ t ∉ prodPaths ∧
        Relation.ReflTransGen ModuleStep t q := by
  intro root hchain
  induction hchain using Relation.ReflTransGen.head_induction_on with
  | refl => intro hmem; exact absurd hmem hq
  | @head a b hab hbq ih =>
    intro hmem
    by_cases hb : b ∈ prodPaths
    · obtain ⟨c, t, hc, hstep, ht, hrest⟩ := ih hb
      exact ⟨c, t, Relation.ReflTransGen.head ⟨hmem, hab⟩ hc, hstep, ht, hrest⟩
    · exact ⟨a, b, Relation.ReflTransGen.refl, hab, hb, hbq⟩

/-- C1: for a run in which the production set was built successfully and
the pruner completed, and on a well-shaped input (a root that is not the
filesystem root and does not itself sit on a `node_modules` segment, a
prefix-closed directory tree, and well-formed dependency names), the
composed `prune` succeeds, every module directory still on disk under the
root's installed tree is a member of the production set, every module
directory that existed before pruning but was not a member no longer
exists, and member directories themselves are never deleted. -/
theorem claim_C1 (fs : FileSystem) (rootModule : FsPath) (prodPaths : List FsPath)
    (fs' : FileSystem)
    (hrne : rootModule ≠ [])
    (hroot : "node_modules" ∉ rootModule)
    (hpc : PrefixClosedUnder rootModule fs)
    (hwf : WellFormedNames fs)
    (hbuild : loadProductionDependencies fs rootModule = some (Except.ok prodPaths))
    (hprune : pruneModule prodPaths (pruneFuel fs) rootModule fs = some fs') :
    prune fs rootModule = some (Except.ok fs') ∧
    (∀ q, ModuleDirUnder rootModule q → pathExists fs' q = true → q ∈ prodPaths) ∧
    (∀ q, ModuleDirUnder rootModule q → pathExists fs q = true → q ∉ prodPaths →
      pathExists fs' q = false) ∧
    (∀ m ∈ prodPaths, pathExists fs m = true → pathExists fs' m = true) := by
  have hrootmem : rootModule ∈ prodPaths := loadPDFM_ok_mem hbuild
  have hclosed := loadProductionDependencies_closed hrne hroot hwf hbuild
  have hb : ∀ q, ModuleDirUnder rootModule q → pathExists fs q = true → q ∉ prodPaths →
      pathExists fs' q = false := by
    rintro q ⟨hchain, hqne⟩ hex hqp
    obtain ⟨c, t, hgc, hstep, ht, hrest⟩ := chain_split hqp hchain hrootmem
    have htq : t <+: q := moduleChain_extends hrest
    obtain ⟨eq1, heq1, heq1p⟩ := pathExists_iff.mp hex
    have hNoT := pruneModule_removes prodPaths hstep ht rootModule hgc (pruneFuel fs)
      fs fs' hprune
      (fun u hut hru =>
        prefixClosedUnder_mem hpc heq1 (by rw [heq1p]; exact hut.trans htq) hru)
    rcases hqex : pathExists fs' q with _ | _
    · rfl
    · exfalso
      obtain ⟨e', he', he'p⟩ := pathExists_iff.mp hqex
      exact hNoT e' he' (by rw [he'p]; exact htq)
  refine ⟨?_, ?_, hb, ?_⟩
  · simp only [prune, hbuild, hprune]
  · intro q hq hex'
    by_contra hqp
    have hsub := pruneModule_sublist prodPaths (pruneFuel fs) rootModule fs fs' hprune
    have hex : pathExists fs q = true := by
      obtain ⟨e, he, hep⟩ := pathExists_iff.mp hex'
      exact pathExists_iff.mpr ⟨e, hsub.subset he, hep⟩
    have hfalse := hb q hq hex hqp
    rw [hfalse] at hex'
    cases hex'
  · intro m hm hex
    by_cases hrm : rootModule <+: m
    · have hgc : GoodChain prodPaths rootModule m := hclosed m hm hrm
      refine pruneModule_keeps prodPaths hm rootModule hgc (pruneFuel fs) fs fs' hprune ?_
      intro u hum hru
      obtain ⟨em, hem, hemp⟩ := pathExists_iff.mp hex
      exact prefixClosedUnder_mem hpc hem (by rw [hemp]; exact hum) hru
    · obtain ⟨em, hem, hemp⟩ := pathExists_iff.mp hex
      refine pathExists_iff.mpr ⟨em, ?_, hemp⟩
      exact pruneModule_frame prodPaths (pruneFuel fs) rootModule fs fs' hprune em hem
        (by rw [hemp]; exact hrm)

/-- Witness for C1 at the concrete example run: `prune` keeps `a` and the
root and deletes the development-only module `b`. -/
theorem claim_C1_witness :
    prune exFs ["app"] = some (Except.ok exFsPruned) ∧
    (∀ q, ModuleDirUnder ["app"] q → pathExists exFsPruned q = true →
      q ∈ [["app", "node_modules", "a"], ["app"]]) ∧
    (∀ q, ModuleDirUnder ["app"] q → pathExists exFs q = true →
      q ∉ [["app", "node_modules", "a"], ["app"]] → pathExists exFsPruned q = false) ∧
    (∀ m ∈ [["app", "node_modules", "a"], ["app"]], pathExists exFs m = true →
      pathExists exFsPruned m = true) :=
  claim_C1 exFs ["app"] [["app", "node_modules", "a"], ["app"]] exFsPruned
    (by decide) (by decide) (by decide) (by decide) (by decide) (by decide)

end Walker
